import Mathlib

/-!
Verification of the route-finder service (`RouteFinderService`) of the
Pathfinding repository.  The service is embedded shallowly: JavaScript
`Map`s become insertion-ordered association lists (`Map.set` keeps the
position of an existing key and appends a new one), `Set`s become
insertion-ordered duplicate-free lists, JavaScript numbers become integers
(the algorithm only adds and compares costs, so nothing depends on
fractional values), `Infinity` — which arises only as a tentative
distance — becomes the `none` of `Option ℤ`, and thrown `HttpException`s
become `Except` errors tagged by the message template they instantiate.
-/

namespace RouteFinder

/-- Association-list lookup, modelling JavaScript `Map.get` (first match wins;
a JavaScript map never holds duplicate keys). -/
def lookupA {α : Type} : List (String × α) → String → Option α
  | [], _ => none
  | (k, v) :: rest, key => if k = key then some v else lookupA rest key

/-- Association-list update, modelling JavaScript `Map.set`: an existing key
keeps its position and receives the new value, a new key is appended. -/
def setA {α : Type} : List (String × α) → String → α → List (String × α)
  | [], key, v => [(key, v)]
  | (k, w) :: rest, key, v =>
    if k = key then (k, v) :: rest else (k, w) :: setA rest key v

/-- `Map.has`. -/
def hasA {α : Type} (m : List (String × α)) (k : String) : Bool :=
  (lookupA m k).isSome

/-- Construction of a JavaScript `Set` from an iterable: duplicates are
dropped, the first occurrence fixes the position. -/
def dedupFirstAux (seen : List String) : List String → List String
  | [] => []
  | x :: xs =>
    if seen.contains x then dedupFirstAux seen xs
    else x :: dedupFirstAux (x :: seen) xs

def dedupFirst (l : List String) : List String :=
  dedupFirstAux [] l

/-- Adjacency map of one node: neighbour identifier to edge cost. -/
abbrev AdjMap := List (String × ℤ)

/-- The graph built by `buildGraph`: node identifier to adjacency map. -/
abbrev Graph := List (String × AdjMap)

/-- `EdgeDto` of `path-request.dto.ts`. -/
structure EdgeDto where
  «from» : String
  «to» : String
  cost : ℤ
deriving DecidableEq, Repr

/-- `ConstraintsDto` of `path-request.dto.ts`. -/
structure ConstraintsDto where
  blockedNodes : List String
  requiredStops : List String
deriving DecidableEq, Repr

/-- `PathRequestDto` of `path-request.dto.ts`. -/
structure PathRequestDto where
  start : String
  «end» : String
  nodes : List String
  edges : List EdgeDto
  constraints : ConstraintsDto
deriving DecidableEq, Repr

/-- `PathResult` of `route-finder.service.ts`. -/
structure PathResult where
  path : List String
  totalCost : ℤ
deriving DecidableEq, Repr

/-- The three `HttpException`s thrown by the service, tagged by the message
template; the argument is the string interpolated into the template
(`missing.join(", ")`, `invalidEdgeNodes.join(", ")`, and the array-to-string
coercion `${requiredStops}` which is `join(",")`). -/
inductive HttpError where
  | missingNodes (joined : String)
  | invalidEdgeNodes (joined : String)
  | noPathFound (joined : String)
deriving DecidableEq, Repr

/-- `validateNodesExist` of `route-finder.service.ts`. -/
def validateNodesExist (validNodes : List String) (edges : List EdgeDto)
    (mustExistNodes : List String) : Except HttpError Unit :=
  let missing := mustExistNodes.filter (fun node => !(validNodes.contains node))
  if !missing.isEmpty then
    Except.error (HttpError.missingNodes (String.intercalate ", " missing))
  else
    let invalidEdgeNodes :=
      ((edges.map (fun e => [e.«from», e.«to»])).flatten).filter
        (fun n => !(validNodes.contains n))
    if !invalidEdgeNodes.isEmpty then
      Except.error (HttpError.invalidEdgeNodes (String.intercalate ", " invalidEdgeNodes))
    else
      Except.ok ()

/-- `if (!graph.has(k)) graph.set(k, new Map())`. -/
def ensureKey (graph : Graph) (k : String) : Graph :=
  if hasA graph k then graph else setA graph k []

/-- The adjacency map the graph holds for `u`: `graph.get(u)!`, with the
empty map standing for an absent key (`buildGraph` only ever reads a key it
just ensured, so the default is never used there). -/
def adjOf (graph : Graph) (u : String) : AdjMap :=
  (lookupA graph u).getD []

/-- The body of the edge loop of `buildGraph` of `route-finder.service.ts`:
an edge with a blocked endpoint is skipped, otherwise both endpoints are
given map entries (if absent) and the cost is recorded under both ordered
pairs. -/
def addEdge (blockedNodes : List String) (graph : Graph) (e : EdgeDto) : Graph :=
  if blockedNodes.contains e.«from» || blockedNodes.contains e.«to» then graph
  else
    let g2 := ensureKey (ensureKey graph e.«from») e.«to»
    let g3 := setA g2 e.«from» (setA (adjOf g2 e.«from») e.«to» e.cost)
    setA g3 e.«to» (setA (adjOf g3 e.«to») e.«from» e.cost)

def buildGraph (edges : List EdgeDto) (blockedNodes : List String) : Graph :=
  edges.foldl (addEdge blockedNodes) []

/-- A tentative distance: `some q` is the finite value `q`, `none` is
`Infinity`. -/
abbrev Dist := Option ℤ

/-- `distances.get(node)!`; every access in the source happens at a key that
was initialised, so the `Infinity` default of an absent key is never
observable (in JavaScript the access would yield `undefined`, which behaves
like `Infinity` at each comparison the algorithm performs). -/
def dget (distances : List (String × Dist)) (node : String) : Dist :=
  (lookupA distances node).getD none

/-- JavaScript `<` on two tentative distances (`Infinity` is greater than
every finite value and not less than itself). -/
def dlt : Dist → Dist → Bool
  | some a, some b => decide (a < b)
  | some _, none => true
  | none, _ => false

/-- `distances.get(current)! + cost`: adding a finite cost to a tentative
distance (`Infinity + cost = Infinity`). -/
def addDist (d : Dist) (c : ℤ) : Dist :=
  d.map (fun q => q + c)

/-- The accumulator loop inside `getMinDistanceNode`. -/
def getMinLoop (distances : List (String × Dist)) :
    List String → Option String → Dist → Option String
  | [], minNode, _ => minNode
  | node :: rest, minNode, minDistance =>
    let dist := dget distances node
    if dlt dist minDistance then getMinLoop distances rest (some node) dist
    else getMinLoop distances rest minNode minDistance

/-- `getMinDistanceNode` of `route-finder.service.ts`: the first unvisited
node of strictly minimal tentative distance, `none` when every unvisited
node is at `Infinity`. -/
def getMinDistanceNode (unvisited : List String)
    (distances : List (String × Dist)) : Option String :=
  getMinLoop distances unvisited none none

/-- The body of the neighbour loop of `processNeighbors`: skip a settled
neighbour, otherwise relax it if the route through `current` is shorter. -/
def relaxStep (current : String) (unvisited : List String)
    (dp : List (String × Dist) × List (String × String)) (nc : String × ℤ) :
    List (String × Dist) × List (String × String) :=
  if !(unvisited.contains nc.1) then dp
  else
    let newDist := addDist (dget dp.1 current) nc.2
    if dlt newDist (dget dp.1 nc.1) then
      (setA dp.1 nc.1 newDist, setA dp.2 nc.1 current)
    else dp

/-- `processNeighbors` of `route-finder.service.ts`: relax every neighbour of
`current` that is still unvisited. -/
def processNeighbors (current : String) (graph : Graph) (unvisited : List String)
    (distances : List (String × Dist)) (previous : List (String × String)) :
    List (String × Dist) × List (String × String) :=
  let neighbors := (lookupA graph current).getD []
  neighbors.foldl (relaxStep current unvisited) (distances, previous)

/-- The `while (unvisited.size > 0)` loop of `dijkstra`.  The loop breaks when
the selected node is `null`, the falsy empty string, or the end node;
otherwise the selected node is deleted from the unvisited set before its
neighbours are relaxed.  Each non-breaking iteration removes one element of
`unvisited`, so fuel `unvisited.length + 1` (supplied by `dijkstra`) is never
exhausted and the `0` branch is unreachable. -/
def dijkstraLoop (graph : Graph) (endNode : String) :
    Nat → List String → List (String × Dist) → List (String × String) →
    List String × List (String × Dist) × List (String × String)
  | 0, unvisited, distances, previous => (unvisited, distances, previous)
  | fuel + 1, unvisited, distances, previous =>
    if unvisited.isEmpty then (unvisited, distances, previous)
    else
      match getMinDistanceNode unvisited distances with
      | none => (unvisited, distances, previous)
      | some current =>
        if current = "" || current = endNode then (unvisited, distances, previous)
        else
          let unvisited' := unvisited.erase current
          let dp := processNeighbors current graph unvisited' distances previous
          dijkstraLoop graph endNode fuel unvisited' dp.1 dp.2

/-- One step of the walk-back in `reconstructPath`:
`current = previous.get(current) || null` (an absent key gives `undefined`,
and the falsy empty string is also coerced to `null`). -/
def prevStep (previous : List (String × String)) (current : String) : Option String :=
  match lookupA previous current with
  | none => none
  | some p => if p = "" then none else some p

/-- The `while (current && current !== start)` walk of `reconstructPath`,
with the final `if (!current) return null` and `path.unshift(start)` folded
in.  The predecessor chain of any state `dijkstra` produces visits pairwise
distinct keys of `previous` (each entry points to a node settled strictly
earlier), so fuel `previous.length + 1` is never exhausted on such states. -/
def walkBack (start : String) (previous : List (String × String)) :
    Nat → Option String → List String → Option (List String)
  | _, none, _ => none
  | fuel, some current, path =>
    if current = "" then none
    else if current = start then some (start :: path)
    else
      match fuel with
      | 0 => none
      | f + 1 => walkBack start previous f (prevStep previous current) (current :: path)

/-- `reconstructPath` of `route-finder.service.ts`. -/
def reconstructPath (start endNode : String)
    (previous : List (String × String)) : Option (List String) :=
  walkBack start previous (previous.length + 1) (some endNode) []

/-- `dijkstra` of `route-finder.service.ts`.  The cost `distances.get(end)!`
is finite whenever `reconstructPath` succeeds, so the `getD 0` default is
never used. -/
def dijkstra (graph : Graph) (start endNode : String) : Option (List String × ℤ) :=
  let unvisited := dedupFirst (graph.map Prod.fst)
  let distances := unvisited.foldl (fun d node => setA d node none) []
  let distances := setA distances start (some 0)
  let res := dijkstraLoop graph endNode (unvisited.length + 1) unvisited distances []
  match reconstructPath start endNode res.2.2 with
  | none => none
  | some path => some (path, (dget res.2.1 endNode).getD 0)

/-- The `for (let i = 0; i < sequence.length - 1; i++)` loop of
`findPathWithRequiredStops`, expressed on the list of consecutive pairs of
the sequence; `isFirst` distinguishes the `i === 0` case. -/
def stitchLoop (graph : Graph) :
    List (String × String) → Bool → List String → ℤ → Option (List String × ℤ)
  | [], _, totalPath, totalCost => some (totalPath, totalCost)
  | (a, b) :: rest, isFirst, totalPath, totalCost =>
    match dijkstra graph a b with
    | none => none
    | some segment =>
      stitchLoop graph rest false
        (if isFirst then segment.1 else totalPath ++ segment.1.drop 1)
        (totalCost + segment.2)

/-- The consecutive pairs of a list. -/
def consecPairs : List String → List (String × String)
  | a :: b :: rest => (a, b) :: consecPairs (b :: rest)
  | _ => []

/-- `findPathWithRequiredStops` of `route-finder.service.ts`. -/
def findPathWithRequiredStops (graph : Graph) (start endNode : String)
    (requiredStops : List String) : Option (List String × ℤ) :=
  stitchLoop graph (consecPairs (start :: (requiredStops ++ [endNode]))) true [] 0

/-- `findOptimalPath` of `route-finder.service.ts` (`requiredStops.concat(end)`
appends the single element `end`). -/
def findOptimalPath (request : PathRequestDto) : Except HttpError PathResult :=
  match validateNodesExist request.nodes request.edges
      (request.constraints.requiredStops ++ [request.«end»]) with
  | Except.error e => Except.error e
  | Except.ok _ =>
    let graph := buildGraph request.edges request.constraints.blockedNodes
    match findPathWithRequiredStops graph request.start request.«end»
        request.constraints.requiredStops with
    | none =>
      Except.error (HttpError.noPathFound
        (String.intercalate "," request.constraints.requiredStops))
    | some result => Except.ok { path := result.1, totalCost := result.2 }

/-! Specification-side notions used to state the claims. -/

/-- The cost the graph records for the ordered pair `(u, v)`. -/
def edgeCost (graph : Graph) (u v : String) : Option ℤ :=
  match lookupA graph u with
  | none => none
  | some adj => lookupA adj v

/-- `p` is a path from `s` to `t` in `graph`: nonempty, starts at `s`, ends
at `t`, and each consecutive pair is an edge recorded by the graph. -/
def IsPath (graph : Graph) (s t : String) (p : List String) : Prop :=
  p.head? = some s ∧ p.getLast? = some t ∧
  List.Chain' (fun u v => (edgeCost graph u v).isSome = true) p

/-- Total edge cost of a node sequence. -/
def pathCost (graph : Graph) : List String → ℤ
  | u :: v :: rest => (edgeCost graph u v).getD 0 + pathCost graph (v :: rest)
  | _ => 0

/-- An input edge that is not skipped (no blocked endpoint) and joins `u`
and `v` in either orientation. -/
def edgeMatches (blockedNodes : List String) (u v : String) (e : EdgeDto) : Bool :=
  !(blockedNodes.contains e.«from» || blockedNodes.contains e.«to») &&
  ((e.«from» = u && e.«to» = v) || (e.«from» = v && e.«to» = u))

/-- The cost of the last non-skipped input edge joining `u` and `v` (in
either orientation); the specification-side description of the
last-write-wins bidirectional registration of `buildGraph`. -/
def lastRecordedCost (edges : List EdgeDto) (blockedNodes : List String)
    (u v : String) : Option ℤ :=
  ((edges.filter (edgeMatches blockedNodes u v)).getLast?).map EdgeDto.cost

/-- Concatenation described by the spec: first segment whole, every later
segment with its first node dropped. -/
def joinPaths : List (List String × ℤ) → List String
  | [] => []
  | (p, _) :: rest => p ++ ((rest.map (fun sg => sg.1.drop 1)).flatten)

/-- Sum of the segment costs. -/
def sumCosts (segs : List (List String × ℤ)) : ℤ :=
  (segs.map (fun sg => sg.2)).sum

/-- Result equality of the service entry point is decidable (used to evaluate
the embedding at concrete requests). -/
instance {ε α : Type} [DecidableEq ε] [DecidableEq α] : DecidableEq (Except ε α) :=
  fun a b =>
  match a, b with
  | Except.error e, Except.error f =>
    if h : e = f then isTrue (congrArg Except.error h)
    else isFalse (fun hc => h (by injection hc))
  | Except.error _, Except.ok _ => isFalse (fun hc => Except.noConfusion hc)
  | Except.ok _, Except.error _ => isFalse (fun hc => Except.noConfusion hc)
  | Except.ok x, Except.ok y =>
    if h : x = y then isTrue (congrArg Except.ok h)
    else isFalse (fun hc => h (by injection hc))

/-- Joint structural invariant of the graphs `buildGraph` goes through:
no blocked key, no blocked neighbour key, no empty adjacency map of a
present key, unique keys, unique neighbour keys. -/
def GoodGraph (blockedNodes : List String) (g : Graph) : Prop :=
  (∀ x, blockedNodes.contains x = true → x ∉ g.map Prod.fst) ∧
  (∀ u x, blockedNodes.contains x = true → lookupA (adjOf g u) x = none) ∧
  (∀ u, u ∈ g.map Prod.fst → adjOf g u ≠ []) ∧
  (g.map Prod.fst).Nodup ∧
  (∀ u, ((adjOf g u).map Prod.fst).Nodup)

/-- The nodes `findOptimalPath` requires to exist (`requiredStops.concat(end)`)
that are absent from the declared node list, in input order. -/
def missingOf (request : PathRequestDto) : List String :=
  (request.constraints.requiredStops ++ [request.«end»]).filter
    (fun node => !(request.nodes.contains node))

/-- The edge endpoints absent from the declared node list, obtained by
flat-mapping each edge to `[from, to]` and filtering (duplicates kept). -/
def invalidOf (request : PathRequestDto) : List String :=
  ((request.edges.map (fun e => [e.«from», e.«to»])).flatten).filter
    (fun n => !(request.nodes.contains n))

/-- The JavaScript `Map` structural invariant on the embedded graph:
unique node keys and unique neighbour keys. -/
def WFGraph (graph : Graph) : Prop :=
  (graph.map Prod.fst).Nodup ∧ ∀ pr ∈ graph, (pr.2.map Prod.fst).Nodup

/-- Every cost recorded in the graph is non-negative. -/
def NonnegCosts (graph : Graph) : Prop :=
  ∀ pr ∈ graph, ∀ nc ∈ pr.2, 0 ≤ nc.2

/-! Association-list lemmas. -/

theorem lookupA_setA {α : Type} (m : List (String × α)) (k key : String) (v : α) :
    lookupA (setA m k v) key = if k = key then some v else lookupA m key := by
  induction m with
  | nil => simp [setA, lookupA]
  | cons pr rest ih =>
    obtain ⟨k', v'⟩ := pr
    by_cases hk : k' = k
    · subst hk
      by_cases hkey : k' = key
      · subst hkey
        simp [setA, lookupA]
      · simp [setA, lookupA, hkey]
    · by_cases hkey : k' = key
      · subst hkey
        simp [setA, lookupA, hk, Ne.symm hk]
      · simp [setA, lookupA, hk, hkey, ih]

theorem mem_keys_setA {α : Type} (m : List (String × α)) (k key : String) (v : α) :
    key ∈ (setA m k v).map Prod.fst ↔ key ∈ m.map Prod.fst ∨ key = k := by
  induction m with
  | nil => simp [setA]
  | cons pr rest ih =>
    obtain ⟨k', v'⟩ := pr
    by_cases hk : k' = k
    · subst hk
      simp [setA]
      tauto
    · simp [setA, hk, ih]
      tauto

theorem nodup_keys_setA {α : Type} (m : List (String × α)) (k : String) (v : α)
    (h : (m.map Prod.fst).Nodup) : ((setA m k v).map Prod.fst).Nodup := by
  induction m with
  | nil => simp [setA]
  | cons pr rest ih =>
    obtain ⟨k', v'⟩ := pr
    rw [List.map_cons, List.nodup_cons] at h
    by_cases hk : k' = k
    · subst hk
      simpa [setA, List.nodup_cons] using h
    · rw [show setA ((k', v') :: rest) k v = (k', v') :: setA rest k v by
        simp [setA, hk]]
      rw [List.map_cons, List.nodup_cons]
      constructor
      · intro hmem
        rw [mem_keys_setA] at hmem
        rcases hmem with hmem | hmem
        · exact h.1 hmem
        · exact hk hmem
      · exact ih h.2

theorem lookupA_eq_none_iff {α : Type} (m : List (String × α)) (key : String) :
    lookupA m key = none ↔ key ∉ m.map Prod.fst := by
  induction m with
  | nil => simp [lookupA]
  | cons pr rest ih =>
    obtain ⟨k', v'⟩ := pr
    by_cases hk : k' = key
    · subst hk
      simp [lookupA]
    · simp [lookupA, hk, ih, Ne.symm hk]

theorem lookupA_isSome_iff {α : Type} (m : List (String × α)) (key : String) :
    (lookupA m key).isSome = true ↔ key ∈ m.map Prod.fst := by
  cases h : lookupA m key with
  | none =>
    simp only [Option.isSome_none]
    rw [lookupA_eq_none_iff] at h
    simp [h]
  | some v =>
    simp only [Option.isSome_some, true_iff]
    by_contra hmem
    rw [← lookupA_eq_none_iff] at hmem
    rw [h] at hmem
    exact Option.noConfusion hmem

theorem lookupA_mem {α : Type} (m : List (String × α)) (key : String) (v : α)
    (h : lookupA m key = some v) : (key, v) ∈ m := by
  induction m with
  | nil => simp [lookupA] at h
  | cons pr rest ih =>
    obtain ⟨k', v'⟩ := pr
    by_cases hk : k' = key
    · subst hk
      simp [lookupA] at h
      simp [h]
    · simp [lookupA, hk] at h
      exact List.mem_cons_of_mem _ (ih h)

theorem mem_lookupA {α : Type} (m : List (String × α)) (key : String) (v : α)
    (hnd : (m.map Prod.fst).Nodup) (h : (key, v) ∈ m) : lookupA m key = some v := by
  induction m with
  | nil => simp at h
  | cons pr rest ih =>
    obtain ⟨k', v'⟩ := pr
    rw [List.map_cons, List.nodup_cons] at hnd
    rcases List.mem_cons.mp h with h | h
    · obtain ⟨h1, h2⟩ := Prod.mk.injEq .. ▸ h
      subst h1
      subst h2
      simp [lookupA]
    · have hk : k' ≠ key := by
        intro hkk
        subst hkk
        exact hnd.1 (List.mem_map.mpr ⟨(k', v), h, rfl⟩)
      simp only [lookupA, hk, if_false]
      exact ih hnd.2 h

/-! `buildGraph` lemmas. -/

theorem adjOf_setA (g : Graph) (k : String) (adj : AdjMap) (x : String) :
    adjOf (setA g k adj) x = if k = x then adj else adjOf g x := by
  unfold adjOf
  rw [lookupA_setA]
  by_cases h : k = x
  · rw [if_pos h, if_pos h]
    simp
  · rw [if_neg h, if_neg h]

theorem adjOf_ensureKey (g : Graph) (k x : String) :
    adjOf (ensureKey g k) x = adjOf g x := by
  unfold ensureKey
  by_cases h : hasA g k
  · rw [if_pos h]
  · rw [if_neg h]
    rw [adjOf_setA]
    by_cases hk : k = x
    · subst hk
      unfold hasA at h
      unfold adjOf
      cases hl : lookupA g k with
      | none => simp [hl]
      | some adj =>
        rw [hl] at h
        simp at h
    · rw [if_neg hk]

theorem edgeCost_eq_adjOf (graph : Graph) (u v : String) :
    edgeCost graph u v = lookupA (adjOf graph u) v := by
  unfold edgeCost adjOf
  cases lookupA graph u with
  | none => simp [lookupA]
  | some adj => simp

theorem adjOf_addEdge (blockedNodes : List String) (graph : Graph) (e : EdgeDto)
    (hskip : (blockedNodes.contains e.«from» || blockedNodes.contains e.«to») = false)
    (x : String) :
    adjOf (addEdge blockedNodes graph e) x =
      (if e.«to» = x then
        setA (if e.«from» = e.«to»
               then setA (adjOf graph e.«from») e.«to» e.cost
               else adjOf graph e.«to») e.«from» e.cost
       else if e.«from» = x then setA (adjOf graph e.«from») e.«to» e.cost
       else adjOf graph x) := by
  unfold addEdge
  rw [if_neg (by rw [hskip]; exact Bool.false_ne_true)]
  simp only [adjOf_setA, adjOf_ensureKey]

theorem edgeCost_addEdge (blockedNodes : List String) (graph : Graph) (e : EdgeDto)
    (u v : String) :
    edgeCost (addEdge blockedNodes graph e) u v =
      if edgeMatches blockedNodes u v e then some e.cost
      else edgeCost graph u v := by
  by_cases hskip : (blockedNodes.contains e.«from» || blockedNodes.contains e.«to») = true
  · have hma : edgeMatches blockedNodes u v e = false := by
      unfold edgeMatches
      rw [hskip]
      simp
    rw [hma]
    simp only [Bool.false_eq_true, if_false]
    unfold addEdge
    rw [hskip]
    simp
  · rw [Bool.not_eq_true] at hskip
    have hm : edgeMatches blockedNodes u v e =
        ((e.«from» = u && e.«to» = v) || (e.«from» = v && e.«to» = u)) := by
      unfold edgeMatches
      rw [hskip]
      simp
    rw [edgeCost_eq_adjOf, adjOf_addEdge blockedNodes graph e hskip u]
    by_cases hto : e.«to» = u
    · rw [if_pos hto, lookupA_setA]
      by_cases hfv : e.«from» = v
      · rw [if_pos hfv]
        have hma : edgeMatches blockedNodes u v e = true := by
          rw [hm]
          simp [hfv, hto]
        rw [hma, if_pos rfl]
      · rw [if_neg hfv]
        by_cases hloop : e.«from» = e.«to»
        · rw [if_pos hloop, lookupA_setA]
          have hvt : ¬ e.«to» = v := by
            rw [← hloop]
            exact hfv
          rw [if_neg hvt]
          have hma : edgeMatches blockedNodes u v e = false := by
            rw [hm]
            simp [hfv, hvt]
          rw [hma]
          simp only [Bool.false_eq_true, if_false]
          rw [edgeCost_eq_adjOf, show e.«from» = u from hloop.trans hto]
        · rw [if_neg hloop]
          have hfu : ¬ e.«from» = u := by
            rw [← hto]
            exact hloop
          have hma : edgeMatches blockedNodes u v e = false := by
            rw [hm]
            simp [hfv, hfu]
          rw [hma]
          simp only [Bool.false_eq_true, if_false]
          rw [edgeCost_eq_adjOf, hto]
    · rw [if_neg hto]
      by_cases hfrom : e.«from» = u
      · rw [if_pos hfrom, lookupA_setA]
        by_cases htv : e.«to» = v
        · rw [if_pos htv]
          have hma : edgeMatches blockedNodes u v e = true := by
            rw [hm]
            simp [hfrom, htv]
          rw [hma, if_pos rfl]
        · rw [if_neg htv]
          have hma : edgeMatches blockedNodes u v e = false := by
            rw [hm]
            simp [htv, hto]
          rw [hma]
          simp only [Bool.false_eq_true, if_false]
          rw [edgeCost_eq_adjOf, hfrom]
      · have hma : edgeMatches blockedNodes u v e = false := by
          rw [hm]
          simp [hfrom, hto]
        rw [hma]
        simp only [Bool.false_eq_true, if_false]
        rw [if_neg hfrom]
        rw [edgeCost_eq_adjOf]

theorem lastRecordedCost_cons (e : EdgeDto) (rest : List EdgeDto)
    (blockedNodes : List String) (u v : String) :
    lastRecordedCost (e :: rest) blockedNodes u v =
      match lastRecordedCost rest blockedNodes u v with
      | some c => some c
      | none => if edgeMatches blockedNodes u v e then some e.cost else none := by
  unfold lastRecordedCost
  by_cases hp : edgeMatches blockedNodes u v e
  · rw [List.filter_cons_of_pos hp]
    cases hr : rest.filter (edgeMatches blockedNodes u v) with
    | nil =>
      simp [hp]
    | cons x xs =>
      rw [List.getLast?_cons_cons]
      cases hx : (x :: xs).getLast? with
      | none => simp at hx
      | some y => simp [hx]
  · rw [List.filter_cons_of_neg hp]
    cases hx : (rest.filter (edgeMatches blockedNodes u v)).getLast? with
    | none => simp [hx, hp]
    | some y => simp [hx]

theorem edgeCost_foldl (blockedNodes : List String) (edges : List EdgeDto) :
    ∀ (g : Graph) (u v : String),
      edgeCost (edges.foldl (addEdge blockedNodes) g) u v =
        match lastRecordedCost edges blockedNodes u v with
        | some c => some c
        | none => edgeCost g u v := by
  induction edges with
  | nil =>
    intro g u v
    simp [lastRecordedCost]
  | cons e rest ih =>
    intro g u v
    rw [List.foldl_cons, ih, lastRecordedCost_cons]
    cases hr : lastRecordedCost rest blockedNodes u v with
    | some c => rfl
    | none =>
      rw [edgeCost_addEdge]
      by_cases hp : edgeMatches blockedNodes u v e
      · simp [hp]
      · simp [hp]

/-! `buildGraph` structural invariants. -/

theorem setA_ne_nil {α : Type} (m : List (String × α)) (k : String) (v : α) :
    setA m k v ≠ [] := by
  cases m with
  | nil => simp [setA]
  | cons pr rest =>
    obtain ⟨k', v'⟩ := pr
    unfold setA
    by_cases h : k' = k
    · simp [h]
    · simp [h]

theorem mem_keys_ensureKey (g : Graph) (k x : String) :
    x ∈ ((ensureKey g k).map Prod.fst) ↔ x ∈ g.map Prod.fst ∨ x = k := by
  unfold ensureKey
  by_cases h : hasA g k
  · rw [if_pos h]
    unfold hasA at h
    rw [lookupA_isSome_iff] at h
    constructor
    · exact Or.inl
    · rintro (hx | hx)
      · exact hx
      · exact hx ▸ h
  · rw [if_neg h]
    exact mem_keys_setA g k x []

theorem mem_keys_addEdge (blockedNodes : List String) (graph : Graph) (e : EdgeDto)
    (hskip : (blockedNodes.contains e.«from» || blockedNodes.contains e.«to») = false)
    (x : String) :
    x ∈ (addEdge blockedNodes graph e).map Prod.fst ↔
      x ∈ graph.map Prod.fst ∨ x = e.«from» ∨ x = e.«to» := by
  unfold addEdge
  rw [if_neg (by rw [hskip]; exact Bool.false_ne_true)]
  simp only [mem_keys_setA, mem_keys_ensureKey]
  tauto

theorem nodup_keys_addEdge (blockedNodes : List String) (graph : Graph) (e : EdgeDto)
    (h : (graph.map Prod.fst).Nodup) :
    ((addEdge blockedNodes graph e).map Prod.fst).Nodup := by
  unfold addEdge
  by_cases hskip : (blockedNodes.contains e.«from» || blockedNodes.contains e.«to») = true
  · rw [if_pos hskip]
    exact h
  · rw [if_neg hskip]
    apply nodup_keys_setA
    apply nodup_keys_setA
    unfold ensureKey
    by_cases h1 : hasA (if hasA graph e.«from» then graph else setA graph e.«from» []) e.«to»
    · rw [if_pos h1]
      by_cases h2 : hasA graph e.«from»
      · rw [if_pos h2]
        exact h
      · rw [if_neg h2]
        exact nodup_keys_setA _ _ _ h
    · rw [if_neg h1]
      apply nodup_keys_setA
      by_cases h2 : hasA graph e.«from»
      · rw [if_pos h2]
        exact h
      · rw [if_neg h2]
        exact nodup_keys_setA _ _ _ h

theorem goodGraph_addEdge (blockedNodes : List String) (graph : Graph) (e : EdgeDto)
    (hg : GoodGraph blockedNodes graph) :
    GoodGraph blockedNodes (addEdge blockedNodes graph e) := by
  obtain ⟨hk, hn, hne, hnd, hadjnd⟩ := hg
  by_cases hskip : (blockedNodes.contains e.«from» || blockedNodes.contains e.«to») = true
  · unfold addEdge
    rw [if_pos hskip]
    exact ⟨hk, hn, hne, hnd, hadjnd⟩
  · rw [Bool.not_eq_true] at hskip
    have hbf : blockedNodes.contains e.«from» = false := by
      rcases Bool.or_eq_false_iff.mp hskip with ⟨h1, _⟩
      exact h1
    have hbt : blockedNodes.contains e.«to» = false := by
      rcases Bool.or_eq_false_iff.mp hskip with ⟨_, h2⟩
      exact h2
    refine ⟨?_, ?_, ?_, nodup_keys_addEdge blockedNodes graph e hnd, ?_⟩
    · intro x hx
      rw [mem_keys_addEdge blockedNodes graph e hskip]
      push_neg
      refine ⟨hk x hx, ?_, ?_⟩
      · intro hxf
        rw [hxf] at hx
        rw [hbf] at hx
        exact Bool.false_ne_true hx
      · intro hxt
        rw [hxt] at hx
        rw [hbt] at hx
        exact Bool.false_ne_true hx
    · intro u x hx
      rw [adjOf_addEdge blockedNodes graph e hskip]
      have hxf : ¬ e.«from» = x := by
        intro h
        rw [← h] at hx
        rw [hbf] at hx
        exact Bool.false_ne_true hx
      have hxt : ¬ e.«to» = x := by
        intro h
        rw [← h] at hx
        rw [hbt] at hx
        exact Bool.false_ne_true hx
      by_cases hu : e.«to» = u
      · rw [if_pos hu, lookupA_setA, if_neg hxf]
        by_cases hl : e.«from» = e.«to»
        · rw [if_pos hl, lookupA_setA, if_neg hxt]
          exact hn _ x hx
        · rw [if_neg hl]
          exact hn _ x hx
      · rw [if_neg hu]
        by_cases hu2 : e.«from» = u
        · rw [if_pos hu2, lookupA_setA, if_neg hxt]
          exact hn _ x hx
        · rw [if_neg hu2]
          exact hn u x hx
    · intro u hu
      rw [adjOf_addEdge blockedNodes graph e hskip]
      by_cases h1 : e.«to» = u
      · rw [if_pos h1]
        exact setA_ne_nil _ _ _
      · rw [if_neg h1]
        by_cases h2 : e.«from» = u
        · rw [if_pos h2]
          exact setA_ne_nil _ _ _
        · rw [if_neg h2]
          apply hne
          rw [mem_keys_addEdge blockedNodes graph e hskip] at hu
          rcases hu with hu | hu | hu
          · exact hu
          · exact absurd hu.symm h2
          · exact absurd hu.symm h1
    · intro u
      rw [adjOf_addEdge blockedNodes graph e hskip]
      by_cases h1 : e.«to» = u
      · rw [if_pos h1]
        apply nodup_keys_setA
        by_cases hl : e.«from» = e.«to»
        · rw [if_pos hl]
          exact nodup_keys_setA _ _ _ (hadjnd _)
        · rw [if_neg hl]
          exact hadjnd _
      · rw [if_neg h1]
        by_cases h2 : e.«from» = u
        · rw [if_pos h2]
          exact nodup_keys_setA _ _ _ (hadjnd _)
        · rw [if_neg h2]
          exact hadjnd u

theorem goodGraph_nil (blockedNodes : List String) :
    GoodGraph blockedNodes [] := by
  refine ⟨?_, ?_, ?_, ?_, ?_⟩
  · intro x _
    simp
  · intro u x _
    simp [adjOf, lookupA]
  · intro u hu
    simp at hu
  · simp
  · intro u
    simp [adjOf, lookupA]

theorem goodGraph_foldl (blockedNodes : List String) (edges : List EdgeDto) :
    ∀ g : Graph, GoodGraph blockedNodes g →
      GoodGraph blockedNodes (edges.foldl (addEdge blockedNodes) g) := by
  induction edges with
  | nil =>
    intro g hg
    exact hg
  | cons e rest ih =>
    intro g hg
    rw [List.foldl_cons]
    exact ih _ (goodGraph_addEdge blockedNodes g e hg)

theorem goodGraph_buildGraph (edges : List EdgeDto) (blockedNodes : List String) :
    GoodGraph blockedNodes (buildGraph edges blockedNodes) :=
  goodGraph_foldl blockedNodes edges [] (goodGraph_nil blockedNodes)

/-- C8: for every edge list and blocked-node list, `buildGraph` skips an edge
entirely when either of its endpoints is blocked, and otherwise records the
edge cost under both ordered pairs `(from, to)` and `(to, from)`, overwriting
any previously recorded cost for that ordered pair: the cost the graph yields
for any ordered pair is exactly that of the last non-skipped input edge
joining the two nodes.  The empty edge list yields the empty graph, and
`buildGraph` is a total function (it never fails). -/
theorem buildGraph_records_last (edges : List EdgeDto) (blockedNodes : List String) :
    buildGraph [] blockedNodes = [] ∧
    ∀ u v, edgeCost (buildGraph edges blockedNodes) u v =
      lastRecordedCost edges blockedNodes u v := by
  constructor
  · rfl
  · intro u v
    unfold buildGraph
    rw [edgeCost_foldl]
    cases h : lastRecordedCost edges blockedNodes u v with
    | some c => rfl
    | none => rfl

/-- C9: the graph `buildGraph` produces contains no blocked identifier,
neither as a top-level key nor as a neighbour key inside any adjacency map,
and every node present as a key has a nonempty adjacency map. -/
theorem buildGraph_no_blocked_no_empty (edges : List EdgeDto)
    (blockedNodes : List String) :
    (∀ x, blockedNodes.contains x = true →
      lookupA (buildGraph edges blockedNodes) x = none) ∧
    (∀ u adj, lookupA (buildGraph edges blockedNodes) u = some adj →
      adj ≠ [] ∧ ∀ x, blockedNodes.contains x = true → lookupA adj x = none) := by
  obtain ⟨hk, hn, hne, _, _⟩ := goodGraph_buildGraph edges blockedNodes
  constructor
  · intro x hx
    rw [lookupA_eq_none_iff]
    exact hk x hx
  · intro u adj hadj
    have hmem : u ∈ (buildGraph edges blockedNodes).map Prod.fst := by
      rw [← lookupA_isSome_iff, hadj]
      rfl
    have hadjOf : adjOf (buildGraph edges blockedNodes) u = adj := by
      unfold adjOf
      rw [hadj]
      rfl
    constructor
    · rw [← hadjOf]
      exact hne u hmem
    · intro x hx
      rw [← hadjOf]
      exact hn u x hx

theorem buildGraph_no_blocked_no_empty_witness :
    lookupA (buildGraph [EdgeDto.mk "A" "B" 1, EdgeDto.mk "B" "C" 2] ["B"]) "B" = none ∧
    ([("B", (1 : ℤ))] ≠ [] ∧ ∀ x, ([] : List String).contains x = true →
      lookupA [("B", (1 : ℤ))] x = none) := by
  constructor
  · exact (buildGraph_no_blocked_no_empty
      [EdgeDto.mk "A" "B" 1, EdgeDto.mk "B" "C" 2] ["B"]).1 "B" (by decide)
  · exact (buildGraph_no_blocked_no_empty
      [EdgeDto.mk "A" "B" 1, EdgeDto.mk "B" "A" 1] []).2 "A" [("B", (1 : ℤ))] (by decide)

/-! Validation claims (C6, C7). -/

/-- C6: `findOptimalPath` checks, before the graph is built and before any
path search, that every identifier of `requiredStops ++ [end]` — the start
identifier is not among them — occurs in the declared node list; when some
are absent it fails with the `MissingNodes` error naming exactly the absent
identifiers, comma-joined, in input order, whatever the rest of the request
looks like; when none are absent no `MissingNodes` error can be produced, so
an absent start identifier alone never triggers it. -/
theorem findOptimalPath_missingNodes (request : PathRequestDto) :
    (missingOf request ≠ [] →
      findOptimalPath request =
        Except.error (HttpError.missingNodes
          (String.intercalate ", " (missingOf request)))) ∧
    (missingOf request = [] →
      ∀ s, findOptimalPath request ≠ Except.error (HttpError.missingNodes s)) := by
  constructor
  · intro hne
    cases hm : missingOf request with
    | nil => exact absurd hm hne
    | cons a as =>
      unfold missingOf at hm
      unfold findOptimalPath validateNodesExist
      rw [hm]
      simp
  · intro hem
    unfold missingOf at hem
    unfold findOptimalPath validateNodesExist
    rw [hem]
    simp only [List.isEmpty_nil, Bool.not_true, Bool.false_eq_true, if_false]
    cases hi : (((request.edges.map (fun e => [e.«from», e.«to»])).flatten).filter
        (fun n => !(request.nodes.contains n))) with
    | nil =>
      simp only [List.isEmpty_nil, Bool.not_true, Bool.false_eq_true, if_false]
      cases hp : findPathWithRequiredStops
          (buildGraph request.edges request.constraints.blockedNodes)
          request.start request.«end» request.constraints.requiredStops with
      | none => simp
      | some r => simp
    | cons b bs => simp

theorem findOptimalPath_missingNodes_witness :
    findOptimalPath (PathRequestDto.mk "A" "X" ["A", "B"] []
        (ConstraintsDto.mk [] ["Y"])) =
      Except.error (HttpError.missingNodes "Y, X") ∧
    ∀ s, findOptimalPath (PathRequestDto.mk "Z" "B" ["A", "B"]
        [EdgeDto.mk "A" "B" 1] (ConstraintsDto.mk [] [])) ≠
      Except.error (HttpError.missingNodes s) := by
  constructor
  · exact (findOptimalPath_missingNodes
      (PathRequestDto.mk "A" "X" ["A", "B"] [] (ConstraintsDto.mk [] ["Y"]))).1
      (by decide)
  · exact (findOptimalPath_missingNodes
      (PathRequestDto.mk "Z" "B" ["A", "B"] [EdgeDto.mk "A" "B" 1]
        (ConstraintsDto.mk [] []))).2 (by decide)

/-- C7: for a request whose must-exist check passes, `findOptimalPath` fails
with the `InvalidEdgeNodes` error exactly when some edge endpoint is absent
from the declared node list; the error names the endpoints obtained by
flat-mapping each edge to `[from, to]` and filtering out declared nodes, so
the identifiers appear in edge order and may repeat. -/
theorem findOptimalPath_invalidEdgeNodes (request : PathRequestDto)
    (hmiss : missingOf request = []) :
    (invalidOf request ≠ [] →
      findOptimalPath request =
        Except.error (HttpError.invalidEdgeNodes
          (String.intercalate ", " (invalidOf request)))) ∧
    (invalidOf request = [] →
      ∀ s, findOptimalPath request ≠ Except.error (HttpError.invalidEdgeNodes s)) := by
  unfold missingOf at hmiss
  constructor
  · intro hne
    cases hi : invalidOf request with
    | nil => exact absurd hi hne
    | cons a as =>
      unfold invalidOf at hi
      unfold findOptimalPath validateNodesExist
      rw [hmiss, hi]
      simp
  · intro hei
    unfold invalidOf at hei
    unfold findOptimalPath validateNodesExist
    rw [hmiss, hei]
    simp only [List.isEmpty_nil, Bool.not_true, Bool.false_eq_true, if_false]
    cases hp : findPathWithRequiredStops
        (buildGraph request.edges request.constraints.blockedNodes)
        request.start request.«end» request.constraints.requiredStops with
    | none => simp
    | some r => simp

theorem findOptimalPath_invalidEdgeNodes_witness :
    findOptimalPath (PathRequestDto.mk "A" "B" ["A", "B"]
        [EdgeDto.mk "A" "Q" 1, EdgeDto.mk "R" "B" 2] (ConstraintsDto.mk [] [])) =
      Except.error (HttpError.invalidEdgeNodes "Q, R") ∧
    ∀ s, findOptimalPath (PathRequestDto.mk "A" "B" ["A", "B"]
        [EdgeDto.mk "A" "B" 1] (ConstraintsDto.mk [] [])) ≠
      Except.error (HttpError.invalidEdgeNodes s) := by
  constructor
  · exact (findOptimalPath_invalidEdgeNodes
      (PathRequestDto.mk "A" "B" ["A", "B"]
        [EdgeDto.mk "A" "Q" 1, EdgeDto.mk "R" "B" 2] (ConstraintsDto.mk [] []))
      (by decide)).1 (by decide)
  · exact (findOptimalPath_invalidEdgeNodes
      (PathRequestDto.mk "A" "B" ["A", "B"] [EdgeDto.mk "A" "B" 1]
        (ConstraintsDto.mk [] [])) (by decide)).2 (by decide)

/-! Segment stitching claims (C2, C5). -/

theorem stitchLoop_all_some (graph : Graph) (pairs : List (String × String)) :
    ∀ (segs : List (List String × ℤ)) (tp : List String) (tc : ℤ),
      List.Forall₂ (fun pr sg => dijkstra graph pr.1 pr.2 = some sg) pairs segs →
      stitchLoop graph pairs false tp tc =
        some (tp ++ ((segs.map (fun sg => sg.1.drop 1)).flatten),
              tc + sumCosts segs) := by
  induction pairs with
  | nil =>
    intro segs tp tc h
    cases h
    simp [stitchLoop, sumCosts]
  | cons q rest ih =>
    intro segs tp tc h
    cases h with
    | cons hsg hrest =>
      obtain ⟨a, b⟩ := q
      simp only [stitchLoop]
      rw [hsg]
      simp only [Bool.false_eq_true, if_false]
      rw [ih _ _ _ hrest]
      simp [sumCosts, add_assoc]

/-- C2: whenever the single-pair search succeeds on every consecutive pair of
`[start] ++ requiredStops ++ [end]` over one fixed graph,
`findPathWithRequiredStops` returns the concatenation that keeps the first
segment whole and drops the first node of every later segment, with cost the
sum of the segment costs. -/
theorem findPathWithRequiredStops_stitches (graph : Graph)
    (start endNode : String) (requiredStops : List String)
    (segs : List (List String × ℤ))
    (h : List.Forall₂ (fun pr sg => dijkstra graph pr.1 pr.2 = some sg)
          (consecPairs (start :: (requiredStops ++ [endNode]))) segs) :
    findPathWithRequiredStops graph start endNode requiredStops =
      some (joinPaths segs, sumCosts segs) := by
  unfold findPathWithRequiredStops
  cases hc : consecPairs (start :: (requiredStops ++ [endNode])) with
  | nil =>
    rw [hc] at h
    cases h
    simp [stitchLoop, joinPaths, sumCosts]
  | cons q rest =>
    rw [hc] at h
    cases h with
    | cons hsg hrest =>
      obtain ⟨a, b⟩ := q
      simp only [stitchLoop]
      rw [hsg]
      simp only [if_pos rfl]
      rw [stitchLoop_all_some graph rest _ _ _ hrest]
      simp [joinPaths, sumCosts]

theorem findPathWithRequiredStops_stitches_witness :
    findPathWithRequiredStops
        (buildGraph [EdgeDto.mk "A" "B" 1, EdgeDto.mk "A" "C" 4, EdgeDto.mk "B" "C" 2] [])
        "A" "C" ["B"] =
      some (["A", "B", "C"], 3) := by
  have h := findPathWithRequiredStops_stitches
    (buildGraph [EdgeDto.mk "A" "B" 1, EdgeDto.mk "A" "C" 4, EdgeDto.mk "B" "C" 2] [])
    "A" "C" ["B"] [(["A", "B"], 1), (["B", "C"], 2)]
    (List.Forall₂.cons (by decide) (List.Forall₂.cons (by decide) List.Forall₂.nil))
  exact h.trans (by decide)

theorem stitchLoop_fail (graph : Graph) (pairs : List (String × String)) :
    ∀ (isFirst : Bool) (tp : List String) (tc : ℤ),
      (∃ pr ∈ pairs, dijkstra graph pr.1 pr.2 = none) →
      stitchLoop graph pairs isFirst tp tc = none := by
  induction pairs with
  | nil =>
    rintro isFirst tp tc ⟨pr, hmem, _⟩
    simp at hmem
  | cons q rest ih =>
    rintro isFirst tp tc ⟨pr, hmem, hnone⟩
    obtain ⟨a, b⟩ := q
    simp only [stitchLoop]
    cases hd : dijkstra graph a b with
    | none => rfl
    | some sg =>
      rcases List.mem_cons.mp hmem with h | h
      · rw [h] at hnone
        rw [hnone] at hd
        exact Option.noConfusion hd
      · exact ih _ _ _ ⟨pr, h, hnone⟩

/-- C5: for a request that passes node validation, if the single-pair search
returns no path on any consecutive segment of
`[start] ++ requiredStops ++ [end]`, then `findOptimalPath` fails with the
`NoPathFound` error whose payload names the required-stops list, and nothing
else (no partial path, no partial cost) is returned. -/
theorem findOptimalPath_noPathFound (request : PathRequestDto)
    (hok : validateNodesExist request.nodes request.edges
        (request.constraints.requiredStops ++ [request.«end»]) = Except.ok ())
    (hfail : ∃ pr ∈ consecPairs
        (request.start :: (request.constraints.requiredStops ++ [request.«end»])),
      dijkstra (buildGraph request.edges request.constraints.blockedNodes)
        pr.1 pr.2 = none) :
    findOptimalPath request =
      Except.error (HttpError.noPathFound
        (String.intercalate "," request.constraints.requiredStops)) := by
  have hnone : findPathWithRequiredStops
      (buildGraph request.edges request.constraints.blockedNodes)
      request.start request.«end» request.constraints.requiredStops = none := by
    unfold findPathWithRequiredStops
    exact stitchLoop_fail _ _ _ _ _ hfail
  unfold findOptimalPath
  rw [hok]
  simp [hnone]

theorem findOptimalPath_noPathFound_witness :
    findOptimalPath (PathRequestDto.mk "A" "C" ["A", "B", "C"]
        [EdgeDto.mk "A" "B" 1, EdgeDto.mk "B" "C" 2] (ConstraintsDto.mk ["B"] [])) =
      Except.error (HttpError.noPathFound "") := by
  exact findOptimalPath_noPathFound
    (PathRequestDto.mk "A" "C" ["A", "B", "C"]
      [EdgeDto.mk "A" "B" 1, EdgeDto.mk "B" "C" 2] (ConstraintsDto.mk ["B"] []))
    (by decide) ⟨("A", "C"), by decide, by decide⟩

/-! Distance-map and minimum-selection lemmas. -/

theorem dget_setA (d : List (String × Dist)) (k : String) (v : Dist) (x : String) :
    dget (setA d k v) x = if k = x then v else dget d x := by
  unfold dget
  rw [lookupA_setA]
  by_cases h : k = x
  · rw [if_pos h, if_pos h]
    rfl
  · rw [if_neg h, if_neg h]

theorem dget_init (l : List String) :
    ∀ d, (∀ x, dget d x = none) →
      ∀ x, dget (l.foldl (fun d node => setA d node none) d) x = none := by
  induction l with
  | nil =>
    intro d hd x
    exact hd x
  | cons a rest ih =>
    intro d hd x
    rw [List.foldl_cons]
    refine ih (setA d a none) ?_ x
    intro y
    rw [dget_setA]
    by_cases h : a = y
    · rw [if_pos h]
    · rw [if_neg h]
      exact hd y

theorem getMinLoop_skip (d : List (String × Dist)) :
    ∀ (l : List String) (acc : Option String) (accd : Dist),
      (∀ x ∈ l, dlt (dget d x) accd = false) →
      getMinLoop d l acc accd = acc := by
  intro l
  induction l with
  | nil =>
    intro acc accd _
    rfl
  | cons a rest ih =>
    intro acc accd h
    simp only [getMinLoop]
    rw [h a (List.mem_cons_self a rest)]
    simp only [Bool.false_eq_true, if_false]
    exact ih acc accd (fun x hx => h x (List.mem_cons_of_mem a hx))

theorem getMin_single (d : List (String × Dist)) (s : String)
    (hd : ∀ x, dget d x = if s = x then some 0 else none) :
    ∀ u : List String, getMinDistanceNode u d = if s ∈ u then some s else none := by
  intro u
  unfold getMinDistanceNode
  induction u with
  | nil => simp [getMinLoop]
  | cons a rest ih =>
    simp only [getMinLoop]
    by_cases ha : s = a
    · subst ha
      rw [hd s, if_pos rfl]
      simp only [dlt, if_true]
      rw [getMinLoop_skip]
      · simp
      · intro x _
        rw [hd x]
        by_cases hx : s = x
        · rw [if_pos hx]
          simp [dlt]
        · rw [if_neg hx]
          rfl
    · rw [hd a, if_neg ha]
      simp only [dlt, Bool.false_eq_true, if_false]
      rw [ih]
      by_cases hm : s ∈ rest
      · rw [if_pos hm, if_pos (List.mem_cons_of_mem a hm)]
      · rw [if_neg hm, if_neg ?_]
        intro hc
        rcases List.mem_cons.mp hc with hc | hc
        · exact ha hc
        · exact hm hc

theorem dijkstraLoop_break_self (g : Graph) (s : String)
    (u : List String) (d : List (String × Dist))
    (hd : ∀ x, dget d x = if s = x then some 0 else none) (fuel : Nat) :
    dijkstraLoop g s (fuel + 1) u d [] = (u, d, []) := by
  simp only [dijkstraLoop]
  by_cases hu : u.isEmpty
  · rw [if_pos hu]
  · rw [if_neg hu]
    rw [getMin_single d s hd u]
    by_cases hm : s ∈ u
    · rw [if_pos hm]
      simp
    · rw [if_neg hm]

/-- For every graph and every start node other than the falsy empty string,
searching from a node to itself yields the one-node path of cost zero: the
very first selected node is the start (every other node is at `Infinity`),
which equals the end node, so the loop stops at once and the walk-back stops
at the start immediately. -/
theorem dijkstra_self (g : Graph) (s : String) (hs : s ≠ "") :
    dijkstra g s s = some ([s], 0) := by
  have hd : ∀ x,
      dget (setA ((dedupFirst (g.map Prod.fst)).foldl
        (fun d node => setA d node none) []) s (some 0)) x =
      if s = x then some 0 else none := by
    intro x
    rw [dget_setA]
    by_cases h : s = x
    · rw [if_pos h, if_pos h]
    · rw [if_neg h, if_neg h]
      exact dget_init (dedupFirst (g.map Prod.fst)) [] (fun _ => rfl) x
  have hrec : reconstructPath s s ([] : List (String × String)) = some [s] := by
    simp [reconstructPath, walkBack, hs]
  simp only [dijkstra]
  rw [dijkstraLoop_break_self g s _ _ hd]
  simp [hrec, hd]

/-- C3 (amended: the node must differ from the falsy empty string ""):
for every graph and every node `s ≠ ""`, `dijkstra(graph, s, s)` returns the
single-node path `[s]` with cost 0; consequently every request with
`start == end`, `start ≠ ""` and no required stops that passes node
validation yields `{path: [start], totalCost: 0}`. -/
theorem dijkstra_self_and_trivial_request (s : String) (hs : s ≠ "") :
    (∀ g : Graph, dijkstra g s s = some ([s], 0)) ∧
    (∀ request : PathRequestDto, request.start = s → request.«end» = s →
      request.constraints.requiredStops = [] →
      validateNodesExist request.nodes request.edges
        (request.constraints.requiredStops ++ [request.«end»]) = Except.ok () →
      findOptimalPath request = Except.ok (PathResult.mk [s] 0)) := by
  constructor
  · intro g
    exact dijkstra_self g s hs
  · intro request hstart hend hstops hvalid
    unfold findOptimalPath
    rw [hvalid]
    have hpath : findPathWithRequiredStops
        (buildGraph request.edges request.constraints.blockedNodes)
        request.start request.«end» request.constraints.requiredStops =
        some ([s], 0) := by
      rw [hstart, hend, hstops]
      unfold findPathWithRequiredStops
      simp only [List.nil_append, consecPairs, stitchLoop]
      rw [dijkstra_self _ s hs]
      simp [stitchLoop]
    simp [hpath]

/-- The claim of C3 as frozen is false at the empty-string node: a search
from `""` to itself returns `null`, not the single-node path. -/
theorem dijkstra_self_empty_string_counterexample :
    dijkstra ([("", [("A", 1)]), ("A", [("", 1)])] : Graph) "" "" = none := by
  decide

theorem dijkstra_self_and_trivial_request_witness :
    dijkstra ([("A", [("B", 1)]), ("B", [("A", 1)])] : Graph) "A" "A" =
      some (["A"], 0) ∧
    findOptimalPath (PathRequestDto.mk "A" "A" ["A", "B"] [EdgeDto.mk "A" "B" 1]
        (ConstraintsDto.mk [] [])) = Except.ok (PathResult.mk ["A"] 0) := by
  constructor
  · exact (dijkstra_self_and_trivial_request "A" (by decide)).1 _
  · exact (dijkstra_self_and_trivial_request "A" (by decide)).2
      (PathRequestDto.mk "A" "A" ["A", "B"] [EdgeDto.mk "A" "B" 1]
        (ConstraintsDto.mk [] [])) rfl rfl rfl (by decide)

/-! The empty-string end node (C10). -/

theorem walkBack_to_empty (s : String) (previous : List (String × String)) :
    ∀ (fuel : Nat) (path : List String),
      walkBack s previous fuel (some "") path = none := by
  intro fuel path
  cases fuel with
  | zero => simp [walkBack]
  | succ f => simp [walkBack]

/-- C10: when the end node is the empty string `""`, `dijkstra` returns
`null` for every graph and every start node — the empty string is falsy, so
the walk-back in `reconstructPath` bails out at once — including when the
start equals `""` and when `""` is a reachable key of the graph;
consequently a validated request with `start == end == ""` and no required
stops fails with `NoPathFound` instead of returning `{path: [""], cost: 0}`. -/
theorem dijkstra_empty_end_and_noPathFound :
    (∀ (g : Graph) (s : String), dijkstra g s "" = none) ∧
    (∀ request : PathRequestDto, request.start = "" → request.«end» = "" →
      request.constraints.requiredStops = [] →
      validateNodesExist request.nodes request.edges
        (request.constraints.requiredStops ++ [request.«end»]) = Except.ok () →
      findOptimalPath request = Except.error (HttpError.noPathFound "")) := by
  have hdij : ∀ (g : Graph) (s : String), dijkstra g s "" = none := by
    intro g s
    unfold dijkstra
    simp only [reconstructPath, walkBack_to_empty]
  constructor
  · exact hdij
  · intro request hstart hend hstops hvalid
    unfold findOptimalPath
    rw [hvalid]
    have hpath : findPathWithRequiredStops
        (buildGraph request.edges request.constraints.blockedNodes)
        request.start request.«end» request.constraints.requiredStops = none := by
      rw [hstart, hend, hstops]
      unfold findPathWithRequiredStops
      simp only [List.nil_append, consecPairs, stitchLoop]
      rw [hdij]
    rw [hstops] at hpath
    have hic : String.intercalate "," ([] : List String) = "" := rfl
    simp [hpath, hstops, hic]

theorem dijkstra_empty_end_and_noPathFound_witness :
    dijkstra ([("", [("A", 1)]), ("A", [("", 1)])] : Graph) "A" "" = none ∧
    findOptimalPath (PathRequestDto.mk "" "" ["", "A"] [EdgeDto.mk "" "A" 1]
        (ConstraintsDto.mk [] [])) =
      Except.error (HttpError.noPathFound "") := by
  constructor
  · exact dijkstra_empty_end_and_noPathFound.1 _ "A"
  · exact dijkstra_empty_end_and_noPathFound.2
      (PathRequestDto.mk "" "" ["", "A"] [EdgeDto.mk "" "A" 1]
        (ConstraintsDto.mk [] [])) rfl rfl rfl (by decide)

/-! Where the nodes of a returned path come from (C4). -/

theorem mem_setA {α : Type} (m : List (String × α)) (k : String) (v : α) :
    ∀ pr ∈ setA m k v, pr ∈ m ∨ pr = (k, v) := by
  induction m with
  | nil =>
    intro pr hpr
    simp [setA] at hpr
    exact Or.inr hpr
  | cons q rest ih =>
    obtain ⟨k', v'⟩ := q
    intro pr hpr
    unfold setA at hpr
    by_cases h : k' = k
    · rw [if_pos h] at hpr
      rcases List.mem_cons.mp hpr with h1 | h1
      · right
        rw [h1, h]
      · left
        exact List.mem_cons_of_mem _ h1
    · rw [if_neg h] at hpr
      rcases List.mem_cons.mp hpr with h1 | h1
      · left
        rw [h1]
        exact List.mem_cons_self _ _
      · rcases ih pr h1 with h2 | h2
        · left
          exact List.mem_cons_of_mem _ h2
        · right
          exact h2

theorem foldl_preserve {β γ : Type} (P : γ → Prop) (f : γ → β → γ)
    (hstep : ∀ acc b, P acc → P (f acc b)) :
    ∀ (l : List β) (acc : γ), P acc → P (l.foldl f acc) := by
  intro l
  induction l with
  | nil =>
    intro acc h
    exact h
  | cons b rest ih =>
    intro acc h
    rw [List.foldl_cons]
    exact ih (f acc b) (hstep acc b h)

/-- Every key and every value of the predecessor map is a key of the graph. -/
def PrevWF (g : Graph) (previous : List (String × String)) : Prop :=
  ∀ pr ∈ previous, pr.1 ∈ g.map Prod.fst ∧ pr.2 ∈ g.map Prod.fst

theorem processNeighbors_prevWF (current : String) (g : Graph)
    (unvisited : List String) (d : List (String × Dist))
    (π : List (String × String))
    (hu : ∀ x ∈ unvisited, x ∈ g.map Prod.fst)
    (hc : current ∈ g.map Prod.fst) (hπ : PrevWF g π) :
    PrevWF g (processNeighbors current g unvisited d π).2 := by
  unfold processNeighbors
  refine foldl_preserve (fun dp => PrevWF g dp.2) _ ?_ _ (d, π) hπ
  intro acc nc hacc
  unfold relaxStep
  by_cases hmem : !(unvisited.contains nc.1)
  · rw [if_pos hmem]
    exact hacc
  · rw [if_neg hmem]
    by_cases hrel : dlt (addDist (dget acc.1 current) nc.2) (dget acc.1 nc.1)
    · rw [if_pos hrel]
      intro pr hpr
      rcases mem_setA acc.2 nc.1 current pr hpr with h | h
      · exact hacc pr h
      · rw [h]
        refine ⟨hu nc.1 ?_, hc⟩
        simp at hmem
        exact hmem
    · rw [if_neg hrel]
      exact hacc

theorem getMinLoop_mem (d : List (String × Dist)) :
    ∀ (l : List String) (acc : Option String) (accd : Dist) (c : String),
      getMinLoop d l acc accd = some c → c ∈ l ∨ acc = some c := by
  intro l
  induction l with
  | nil =>
    intro acc accd c h
    right
    exact h
  | cons a rest ih =>
    intro acc accd c h
    simp only [getMinLoop] at h
    by_cases hlt : dlt (dget d a) accd
    · rw [if_pos hlt] at h
      rcases ih _ _ _ h with h1 | h1
      · exact Or.inl (List.mem_cons_of_mem a h1)
      · left
        rw [show a = c from by injection h1]
        exact List.mem_cons_self _ _
    · rw [if_neg hlt] at h
      rcases ih _ _ _ h with h1 | h1
      · exact Or.inl (List.mem_cons_of_mem a h1)
      · exact Or.inr h1

theorem getMinDistanceNode_mem (u : List String) (d : List (String × Dist))
    (c : String) (h : getMinDistanceNode u d = some c) : c ∈ u := by
  rcases getMinLoop_mem d u none none c h with h1 | h1
  · exact h1
  · exact Option.noConfusion h1

theorem dijkstraLoop_prevWF (g : Graph) (endNode : String) :
    ∀ (fuel : Nat) (u : List String) (d : List (String × Dist))
      (π : List (String × String)),
      (∀ x ∈ u, x ∈ g.map Prod.fst) → PrevWF g π →
      PrevWF g (dijkstraLoop g endNode fuel u d π).2.2 := by
  intro fuel
  induction fuel with
  | zero =>
    intro u d π _ hπ
    exact hπ
  | succ f ih =>
    intro u d π hu hπ
    simp only [dijkstraLoop]
    by_cases hemp : u.isEmpty
    · rw [if_pos hemp]
      exact hπ
    · rw [if_neg hemp]
      cases hmin : getMinDistanceNode u d with
      | none => exact hπ
      | some current =>
        dsimp only
        by_cases hbrk : (current = "" || current = endNode) = true
        · rw [if_pos hbrk]
          exact hπ
        · rw [if_neg hbrk]
          have hcur : current ∈ g.map Prod.fst :=
            hu current (getMinDistanceNode_mem u d current hmin)
          have hu' : ∀ x ∈ u.erase current, x ∈ g.map Prod.fst :=
            fun x hx => hu x (List.mem_of_mem_erase hx)
          exact ih _ _ _ hu'
            (processNeighbors_prevWF current g (u.erase current) d π hu' hcur hπ)

theorem dedupFirstAux_subset :
    ∀ (l seen : List String) (x : String), x ∈ dedupFirstAux seen l → x ∈ l := by
  intro l
  induction l with
  | nil =>
    intro seen x h
    simp [dedupFirstAux] at h
  | cons a rest ih =>
    intro seen x h
    unfold dedupFirstAux at h
    by_cases hs : seen.contains a
    · rw [if_pos hs] at h
      exact List.mem_cons_of_mem a (ih seen x h)
    · rw [if_neg hs] at h
      rcases List.mem_cons.mp h with h1 | h1
      · rw [h1]
        exact List.mem_cons_self _ _
      · exact List.mem_cons_of_mem a (ih (a :: seen) x h1)

theorem walkBack_nodes (s : String) (π : List (String × String)) :
    ∀ (fuel : Nat) (c : String) (acc p : List String),
      walkBack s π fuel (some c) acc = some p →
      ∀ x ∈ p, x = s ∨ x ∈ acc ∨ x = c ∨ ∃ pr ∈ π, x = pr.2 := by
  intro fuel
  induction fuel with
  | zero =>
    intro c acc p h x hx
    simp only [walkBack] at h
    by_cases hc1 : c = ""
    · rw [if_pos hc1] at h
      exact Option.noConfusion h
    · rw [if_neg hc1] at h
      by_cases hc2 : c = s
      · rw [if_pos hc2] at h
        injection h with h
        rw [← h] at hx
        rcases List.mem_cons.mp hx with h1 | h1
        · exact Or.inl h1
        · exact Or.inr (Or.inl h1)
      · rw [if_neg hc2] at h
        exact Option.noConfusion h
  | succ f ih =>
    intro c acc p h x hx
    simp only [walkBack] at h
    by_cases hc1 : c = ""
    · rw [if_pos hc1] at h
      exact Option.noConfusion h
    · rw [if_neg hc1] at h
      by_cases hc2 : c = s
      · rw [if_pos hc2] at h
        injection h with h
        rw [← h] at hx
        rcases List.mem_cons.mp hx with h1 | h1
        · exact Or.inl h1
        · exact Or.inr (Or.inl h1)
      · rw [if_neg hc2] at h
        cases hps : prevStep π c with
        | none =>
          rw [hps] at h
          simp [walkBack] at h
        | some v =>
          rw [hps] at h
          have hv : lookupA π c = some v := by
            unfold prevStep at hps
            cases hl : lookupA π c with
            | none =>
              rw [hl] at hps
              exact Option.noConfusion hps
            | some w =>
              rw [hl] at hps
              dsimp only at hps
              by_cases hw : w = ""
              · rw [if_pos hw] at hps
                exact Option.noConfusion hps
              · rw [if_neg hw] at hps
                exact hps
          rcases ih v (c :: acc) p h x hx with h1 | h1 | h1 | h1
          · exact Or.inl h1
          · rcases List.mem_cons.mp h1 with h2 | h2
            · exact Or.inr (Or.inr (Or.inl h2))
            · exact Or.inr (Or.inl h2)
          · right
            right
            right
            exact ⟨(c, v), lookupA_mem π c v hv, h1.symm ▸ rfl⟩
          · exact Or.inr (Or.inr (Or.inr h1))

theorem walkBack_endpoint (s : String) (π : List (String × String)) :
    ∀ (fuel : Nat) (c : String) (acc p : List String),
      walkBack s π fuel (some c) acc = some p →
      c = s ∨ c ∈ π.map Prod.fst := by
  intro fuel c acc p h
  by_cases hc2 : c = s
  · exact Or.inl hc2
  · right
    cases fuel with
    | zero =>
      simp only [walkBack] at h
      by_cases hc1 : c = ""
      · rw [if_pos hc1] at h
        exact Option.noConfusion h
      · rw [if_neg hc1, if_neg hc2] at h
        exact Option.noConfusion h
    | succ f =>
      simp only [walkBack] at h
      by_cases hc1 : c = ""
      · rw [if_pos hc1] at h
        exact Option.noConfusion h
      · rw [if_neg hc1, if_neg hc2] at h
        cases hps : prevStep π c with
        | none =>
          rw [hps] at h
          simp [walkBack] at h
        | some v =>
          unfold prevStep at hps
          cases hl : lookupA π c with
          | none =>
            rw [hl] at hps
            exact Option.noConfusion hps
          | some w =>
            have := lookupA_mem π c w hl
            exact List.mem_map.mpr ⟨(c, w), this, rfl⟩

/-- A node of a path returned by `dijkstra` is the start node or a key of
the graph. -/
theorem dijkstra_path_nodes (g : Graph) (a b : String) (p : List String) (c : ℤ)
    (h : dijkstra g a b = some (p, c)) :
    ∀ x ∈ p, x = a ∨ x ∈ g.map Prod.fst := by
  have hwf : PrevWF g (dijkstraLoop g b
      ((dedupFirst (g.map Prod.fst)).length + 1)
      (dedupFirst (g.map Prod.fst))
      (setA ((dedupFirst (g.map Prod.fst)).foldl
        (fun d node => setA d node none) []) a (some 0)) []).2.2 := by
    refine dijkstraLoop_prevWF g b _ _ _ _ ?_ ?_
    · intro x hx
      exact dedupFirstAux_subset _ [] x hx
    · intro pr hpr
      simp at hpr
  simp only [dijkstra] at h
  cases hrec : reconstructPath a b (dijkstraLoop g b
      ((dedupFirst (g.map Prod.fst)).length + 1)
      (dedupFirst (g.map Prod.fst))
      (setA ((dedupFirst (g.map Prod.fst)).foldl
        (fun d node => setA d node none) []) a (some 0)) []).2.2 with
  | none =>
    rw [hrec] at h
    exact Option.noConfusion h
  | some path =>
    rw [hrec] at h
    injection h with h
    have hpath : path = p := congrArg Prod.fst h
    unfold reconstructPath at hrec
    intro x hx
    rw [← hpath] at hx
    rcases walkBack_nodes a _ _ b [] path hrec x hx with h1 | h1 | h1 | h1
    · exact Or.inl h1
    · simp at h1
    · rcases walkBack_endpoint a _ _ b [] path hrec with h2 | h2
      · exact Or.inl (h1.trans h2)
      · right
        rw [h1]
        rcases List.mem_map.mp h2 with ⟨pr, hpr, hpr2⟩
        exact hpr2 ▸ (hwf pr hpr).1
    · rcases h1 with ⟨pr, hpr, hx2⟩
      right
      rw [hx2]
      exact (hwf pr hpr).2

/-- The end node of a successful `dijkstra` search is the start node or a
key of the graph. -/
theorem dijkstra_end_node (g : Graph) (a b : String) (p : List String) (c : ℤ)
    (h : dijkstra g a b = some (p, c)) :
    b = a ∨ b ∈ g.map Prod.fst := by
  have hwf : PrevWF g (dijkstraLoop g b
      ((dedupFirst (g.map Prod.fst)).length + 1)
      (dedupFirst (g.map Prod.fst))
      (setA ((dedupFirst (g.map Prod.fst)).foldl
        (fun d node => setA d node none) []) a (some 0)) []).2.2 := by
    refine dijkstraLoop_prevWF g b _ _ _ _ ?_ ?_
    · intro x hx
      exact dedupFirstAux_subset _ [] x hx
    · intro pr hpr
      simp at hpr
  simp only [dijkstra] at h
  cases hrec : reconstructPath a b (dijkstraLoop g b
      ((dedupFirst (g.map Prod.fst)).length + 1)
      (dedupFirst (g.map Prod.fst))
      (setA ((dedupFirst (g.map Prod.fst)).foldl
        (fun d node => setA d node none) []) a (some 0)) []).2.2 with
  | none =>
    rw [hrec] at h
    exact Option.noConfusion h
  | some path =>
    unfold reconstructPath at hrec
    rcases walkBack_endpoint a _ _ b [] path hrec with h2 | h2
    · exact Or.inl h2
    · right
      rcases List.mem_map.mp h2 with ⟨pr, hpr, hpr2⟩
      exact hpr2 ▸ (hwf pr hpr).1

theorem stitchLoop_nodes (g : Graph) :
    ∀ (l : List String) (a : String) (isFirst : Bool) (tp : List String)
      (tc : ℤ) (res : List String × ℤ),
      stitchLoop g (consecPairs (a :: l)) isFirst tp tc = some res →
      ∀ x ∈ res.1, x ∈ tp ∨ x = a ∨ x ∈ g.map Prod.fst := by
  intro l
  induction l with
  | nil =>
    intro a isFirst tp tc res h x hx
    simp only [consecPairs, stitchLoop] at h
    injection h with h
    rw [← h] at hx
    exact Or.inl hx
  | cons b rest ih =>
    intro a isFirst tp tc res h x hx
    simp only [consecPairs, stitchLoop] at h
    cases hd : dijkstra g a b with
    | none =>
      rw [hd] at h
      exact Option.noConfusion h
    | some seg =>
      rw [hd] at h
      rcases ih b false _ _ res h x hx with h1 | h1 | h1
      · by_cases hf : isFirst = true
        · rw [if_pos hf] at h1
          rcases dijkstra_path_nodes g a b seg.1 seg.2
            (by rw [hd]) x h1 with h2 | h2
          · exact Or.inr (Or.inl h2)
          · exact Or.inr (Or.inr h2)
        · rw [if_neg hf] at h1
          rcases List.mem_append.mp h1 with h2 | h2
          · exact Or.inl h2
          · rcases dijkstra_path_nodes g a b seg.1 seg.2
              (by rw [hd]) x (List.mem_of_mem_drop h2) with h3 | h3
            · exact Or.inr (Or.inl h3)
            · exact Or.inr (Or.inr h3)
      · rcases dijkstra_end_node g a b seg.1 seg.2 (by rw [hd]) with h2 | h2
        · exact Or.inr (Or.inl (h1.trans h2))
        · exact Or.inr (Or.inr (h1 ▸ h2))
      · exact Or.inr (Or.inr h1)

/-- C4 (amended: the start node itself escapes the rule when
`start == end == <the blocked node>`, where the degenerate single-node search
never touches the graph): every identifier of `blockedNodes` that occurs in a
path returned by a successful `findOptimalPath` is the start identifier. -/
theorem findOptimalPath_no_blocked (request : PathRequestDto)
    (result : PathResult)
    (h : findOptimalPath request = Except.ok result) :
    ∀ x ∈ result.path,
      request.constraints.blockedNodes.contains x = true → x = request.start := by
  unfold findOptimalPath at h
  cases hv : validateNodesExist request.nodes request.edges
      (request.constraints.requiredStops ++ [request.«end»]) with
  | error e =>
    rw [hv] at h
    exact Except.noConfusion h
  | ok u =>
    rw [hv] at h
    dsimp only at h
    cases hp : findPathWithRequiredStops
        (buildGraph request.edges request.constraints.blockedNodes)
        request.start request.«end» request.constraints.requiredStops with
    | none =>
      rw [hp] at h
      exact Except.noConfusion h
    | some r =>
      rw [hp] at h
      injection h with h
      intro x hx hblk
      have hx' : x ∈ r.1 := by
        rw [← h] at hx
        exact hx
      unfold findPathWithRequiredStops at hp
      rcases stitchLoop_nodes
        (buildGraph request.edges request.constraints.blockedNodes)
        (request.constraints.requiredStops ++ [request.«end»])
        request.start true [] 0 r hp x hx' with h1 | h1 | h1
      · simp at h1
      · exact h1
      · obtain ⟨hk, _, _, _, _⟩ := goodGraph_buildGraph request.edges
          request.constraints.blockedNodes
        exact absurd h1 (hk x hblk)

/-- The claim of C4 as frozen is false: a request whose start and end
coincide with a blocked node succeeds and returns that blocked node as its
one-element path. -/
theorem findOptimalPath_no_blocked_counterexample :
    findOptimalPath (PathRequestDto.mk "A" "A" ["A", "B"] []
        (ConstraintsDto.mk ["A"] [])) =
      Except.ok (PathResult.mk ["A"] 0) ∧
    (["A"] : List String).contains "A" = true := by
  decide

theorem findOptimalPath_no_blocked_witness :
    findOptimalPath (PathRequestDto.mk "A" "B" ["A", "B", "C"]
        [EdgeDto.mk "A" "B" 1] (ConstraintsDto.mk ["C"] [])) =
      Except.ok (PathResult.mk ["A", "B"] 1) ∧
    ∀ x ∈ (["A", "B"] : List String),
      (["C"] : List String).contains x = true → x = "A" := by
  constructor
  · decide
  · have h := findOptimalPath_no_blocked
      (PathRequestDto.mk "A" "B" ["A", "B", "C"]
        [EdgeDto.mk "A" "B" 1] (ConstraintsDto.mk ["C"] []))
      (PathResult.mk ["A", "B"] 1) (by decide)
    exact h

/-! Path and path-cost lemmas (toward C1). -/

theorem isPath_single (g : Graph) (s : String) : IsPath g s s [s] := by
  refine ⟨rfl, rfl, ?_⟩
  exact List.chain'_singleton s

theorem isPath_ne_nil (g : Graph) (s t : String) (p : List String)
    (h : IsPath g s t p) : p ≠ [] := by
  intro hc
  rw [hc] at h
  exact Option.noConfusion h.1

theorem pathCost_cons_cons (g : Graph) (a b : String) (l : List String) :
    pathCost g (a :: b :: l) = (edgeCost g a b).getD 0 + pathCost g (b :: l) := rfl

theorem edgeCost_nonneg (g : Graph) (hnn : NonnegCosts g) (u v : String) (c : ℤ)
    (h : edgeCost g u v = some c) : 0 ≤ c := by
  rw [edgeCost_eq_adjOf] at h
  unfold adjOf at h
  cases hl : lookupA g u with
  | none =>
    rw [hl] at h
    simp [lookupA] at h
  | some adj =>
    rw [hl] at h
    simp only [Option.getD_some] at h
    exact hnn (u, adj) (lookupA_mem g u adj hl) (v, c) (lookupA_mem adj v c h)

theorem edgeCost_mem_keys (g : Graph) (u v : String)
    (h : (edgeCost g u v).isSome = true) : u ∈ g.map Prod.fst := by
  unfold edgeCost at h
  cases hl : lookupA g u with
  | none =>
    rw [hl] at h
    simp at h
  | some adj =>
    rw [← lookupA_isSome_iff, hl]
    rfl

theorem pathCost_nonneg (g : Graph) (hnn : NonnegCosts g) :
    ∀ p : List String,
      List.Chain' (fun u v => (edgeCost g u v).isSome = true) p →
      0 ≤ pathCost g p := by
  intro p
  induction p with
  | nil =>
    intro _
    exact le_refl 0
  | cons a rest ih =>
    intro hch
    cases rest with
    | nil =>
      exact le_refl 0
    | cons b rest' =>
      rw [pathCost_cons_cons]
      rcases List.chain'_cons.mp hch with ⟨hab, hrest⟩
      have h1 : 0 ≤ (edgeCost g a b).getD 0 := by
        cases hc : edgeCost g a b with
        | none => simp
        | some c =>
          simp only [Option.getD_some]
          exact edgeCost_nonneg g hnn a b c hc
      have h2 := ih hrest
      linarith

theorem pathCost_append (g : Graph) :
    ∀ (l₁ : List String) (y : String) (l₂ : List String),
      pathCost g (l₁ ++ y :: l₂) = pathCost g (l₁ ++ [y]) + pathCost g (y :: l₂) := by
  intro l₁
  induction l₁ with
  | nil =>
    intro y l₂
    simp [pathCost]
  | cons u rest ih =>
    intro y l₂
    cases rest with
    | nil =>
      simp only [List.cons_append, List.nil_append]
      rw [pathCost_cons_cons]
      have h1 : pathCost g [u, y] = (edgeCost g u y).getD 0 + pathCost g [y] := rfl
      have h2 : pathCost g [y] = 0 := rfl
      rw [h1, h2]
      ring
    | cons r rest' =>
      have ih' := ih y l₂
      simp only [List.cons_append] at ih' ⊢
      rw [pathCost_cons_cons, pathCost_cons_cons, ih']
      ring

theorem pathCost_concat (g : Graph) :
    ∀ (p : List String) (v x : String), p.getLast? = some v →
      pathCost g (p ++ [x]) = pathCost g p + (edgeCost g v x).getD 0 := by
  intro p
  induction p with
  | nil =>
    intro v x h
    exact Option.noConfusion h
  | cons a rest ih =>
    intro v x h
    cases rest with
    | nil =>
      have hv : a = v := by
        simp [List.getLast?] at h
        exact h
      subst hv
      simp [pathCost]
    | cons b rest' =>
      rw [List.getLast?_cons_cons] at h
      have ih' := ih v x h
      simp only [List.cons_append] at ih' ⊢
      rw [pathCost_cons_cons, pathCost_cons_cons, ih']
      ring

theorem isPath_append (g : Graph) (s v x : String) (p : List String)
    (h : IsPath g s v p) (hx : (edgeCost g v x).isSome = true) :
    IsPath g s x (p ++ [x]) := by
  obtain ⟨hh, hl, hc⟩ := h
  refine ⟨?_, ?_, ?_⟩
  · cases p with
    | nil => exact Option.noConfusion hh
    | cons a rest => exact hh
  · exact List.getLast?_concat p
  · rw [List.chain'_append]
    refine ⟨hc, List.chain'_singleton x, ?_⟩
    intro y hy z hz
    simp at hz
    rw [hl] at hy
    simp at hy
    rw [← hy, ← hz]
    exact hx

theorem chain'_succ_of_mem_dropLast (g : Graph) :
    ∀ (p : List String) (y : String),
      List.Chain' (fun u v => (edgeCost g u v).isSome = true) p →
      y ∈ p.dropLast → ∃ z, (edgeCost g y z).isSome = true := by
  intro p
  induction p with
  | nil =>
    intro y _ hy
    simp at hy
  | cons a rest ih =>
    intro y hch hy
    cases rest with
    | nil =>
      simp at hy
    | cons b rest' =>
      rcases List.chain'_cons.mp hch with ⟨hab, hrest⟩
      rw [List.dropLast_cons₂] at hy
      rcases List.mem_cons.mp hy with h1 | h1
      · exact ⟨b, h1 ▸ hab⟩
      · exact ih y hrest h1

theorem mem_dropLast_keys (g : Graph) (p : List String) (y : String)
    (hch : List.Chain' (fun u v => (edgeCost g u v).isSome = true) p)
    (hy : y ∈ p.dropLast) : y ∈ g.map Prod.fst := by
  rcases chain'_succ_of_mem_dropLast g p y hch hy with ⟨z, hz⟩
  exact edgeCost_mem_keys g y z hz

theorem split_first_not (Q : String → Prop) [DecidablePred Q] :
    ∀ l : List String, (∀ y ∈ l, Q y) ∨
      ∃ pre y post, l = pre ++ y :: post ∧ ¬ Q y ∧ ∀ z ∈ pre, Q z := by
  intro l
  induction l with
  | nil =>
    left
    intro y hy
    simp at hy
  | cons a rest ih =>
    by_cases ha : Q a
    · rcases ih with h | ⟨pre, y, post, heq, hny, hpre⟩
      · left
        intro y hy
        rcases List.mem_cons.mp hy with h1 | h1
        · exact h1 ▸ ha
        · exact h y h1
      · right
        refine ⟨a :: pre, y, post, by rw [heq]; rfl, hny, ?_⟩
        intro z hz
        rcases List.mem_cons.mp hz with h1 | h1
        · exact h1 ▸ ha
        · exact hpre z h1
    · right
      exact ⟨[], a, rest, rfl, ha, by intro z hz; simp at hz⟩

theorem isPath_prefix (g : Graph) (s w : String) (pre post : List String)
    (y : String) (h : IsPath g s w (pre ++ y :: post)) :
    IsPath g s y (pre ++ [y]) := by
  obtain ⟨hh, hl, hc⟩ := h
  refine ⟨?_, List.getLast?_concat pre, ?_⟩
  · cases pre with
    | nil => exact hh
    | cons a rest => exact hh
  · have : pre ++ y :: post = (pre ++ [y]) ++ post := by simp
    rw [this] at hc
    exact (List.chain'_append.mp hc).1

theorem chain'_suffix (g : Graph) (s w : String) (pre post : List String)
    (y : String) (h : IsPath g s w (pre ++ y :: post)) :
    List.Chain' (fun u v => (edgeCost g u v).isSome = true) (y :: post) := by
  obtain ⟨_, _, hc⟩ := h
  exact (List.chain'_append.mp hc).2.1

/-! Specification of the minimum selection (toward C1). -/

theorem dlt_none_left (b : Dist) : dlt none b = false := rfl

theorem dlt_some_none (a : ℤ) : dlt (some a) none = true := rfl

theorem dlt_some_some (a b : ℤ) : dlt (some a) (some b) = decide (a < b) := rfl

theorem getMinLoop_some_of_acc (d : List (String × Dist)) :
    ∀ (l : List String) (n : String) (accd : Dist),
      ∃ w, getMinLoop d l (some n) accd = some w := by
  intro l
  induction l with
  | nil =>
    intro n accd
    exact ⟨n, rfl⟩
  | cons a rest ih =>
    intro n accd
    simp only [getMinLoop]
    by_cases hlt : dlt (dget d a) accd = true
    · rw [if_pos hlt]
      exact ih a (dget d a)
    · rw [if_neg hlt]
      exact ih n accd

theorem getMin_none (u : List String) (d : List (String × Dist))
    (h : getMinDistanceNode u d = none) : ∀ x ∈ u, dget d x = none := by
  unfold getMinDistanceNode at h
  induction u with
  | nil =>
    intro x hx
    simp at hx
  | cons a rest ih =>
    intro x hx
    simp only [getMinLoop] at h
    by_cases hlt : dlt (dget d a) none = true
    · rw [if_pos hlt] at h
      rcases getMinLoop_some_of_acc d rest a (dget d a) with ⟨w, hw⟩
      rw [hw] at h
      exact Option.noConfusion h
    · rw [if_neg hlt] at h
      rcases List.mem_cons.mp hx with h1 | h1
      · cases hda : dget d a with
        | none => rw [h1, hda]
        | some q =>
          rw [hda] at hlt
          exact absurd (dlt_some_none q) hlt
      · exact ih h x h1

theorem getMinLoop_min (d : List (String × Dist)) :
    ∀ (l : List String) (acc : Option String) (accd : Dist),
      (acc = none → accd = none) →
      (∀ n, acc = some n → dget d n = accd ∧ accd ≠ none) →
      ∀ w, getMinLoop d l acc accd = some w →
        (dget d w ≠ none ∧
         (∀ qc, accd = some qc → ∃ qw, dget d w = some qw ∧ qw ≤ qc) ∧
         ∀ x ∈ l, dlt (dget d x) (dget d w) = false) := by
  intro l
  induction l with
  | nil =>
    intro acc accd hn hs w h
    simp only [getMinLoop] at h
    rcases hs w h with ⟨h1, h2⟩
    refine ⟨by rw [h1]; exact h2, ?_, ?_⟩
    · intro qc hqc
      rw [hqc] at h1
      exact ⟨qc, h1, le_refl qc⟩
    · intro x hx
      simp at hx
  | cons a rest ih =>
    intro acc accd hn hs w h
    simp only [getMinLoop] at h
    by_cases hlt : dlt (dget d a) accd = true
    · rw [if_pos hlt] at h
      have hda : ∃ qa, dget d a = some qa := by
        cases hda : dget d a with
        | none =>
          rw [hda, dlt_none_left] at hlt
          exact Bool.noConfusion hlt
        | some qa => exact ⟨qa, rfl⟩
      rcases hda with ⟨qa, hda⟩
      have := ih (some a) (dget d a)
        (fun hc => Option.noConfusion hc)
        (fun n hc => by
          injection hc with hc
          rw [← hc]
          exact ⟨rfl, by rw [hda]; exact Option.noConfusion⟩)
        w h
      rcases this with ⟨h1, h2, h3⟩
      refine ⟨h1, ?_, ?_⟩
      · intro qc hqc
        rcases h2 qa hda with ⟨qw, hqw, hle⟩
        refine ⟨qw, hqw, ?_⟩
        rw [hqc] at hlt
        rw [hda, dlt_some_some] at hlt
        have := of_decide_eq_true hlt
        linarith
      · intro x hx
        rcases List.mem_cons.mp hx with h4 | h4
        · rcases h2 qa hda with ⟨qw, hqw, hle⟩
          rw [h4, hda, hqw, dlt_some_some]
          simp
          linarith
        · exact h3 x h4
    · rw [if_neg hlt] at h
      rcases ih acc accd hn hs w h with ⟨h1, h2, h3⟩
      refine ⟨h1, h2, ?_⟩
      intro x hx
      rcases List.mem_cons.mp hx with h4 | h4
      · rw [h4]
        cases hda : dget d a with
        | none => exact dlt_none_left _
        | some qa =>
          rw [hda] at hlt
          cases haccd : accd with
          | none =>
            rw [haccd, dlt_some_none] at hlt
            exact absurd rfl hlt
          | some qc =>
            rw [haccd, dlt_some_some] at hlt
            have hqa : qc ≤ qa := by
              have := of_decide_eq_false (Bool.not_eq_true _ ▸ hlt)
              linarith
            rcases h2 qc haccd with ⟨qw, hqw, hle⟩
            rw [hqw, dlt_some_some]
            simp
            linarith
      · exact h3 x h4

theorem getMin_spec (u : List String) (d : List (String × Dist)) (w : String)
    (h : getMinDistanceNode u d = some w) :
    ∃ qw, dget d w = some qw ∧
      ∀ x ∈ u, dlt (dget d x) (some qw) = false := by
  unfold getMinDistanceNode at h
  rcases getMinLoop_min d u none none (fun _ => rfl)
    (fun n hc => Option.noConfusion hc) w h with ⟨h1, _, h3⟩
  cases hdw : dget d w with
  | none => exact absurd hdw h1
  | some qw =>
    refine ⟨qw, rfl, ?_⟩
    intro x hx
    have := h3 x hx
    rw [hdw] at this
    exact this

/-! Specification of the relaxation fold (toward C1). -/

theorem relaxStep_cases (current : String) (unvisited : List String)
    (d : List (String × Dist)) (π : List (String × String)) (n : String) (c : ℤ) :
    (((unvisited.contains n && dlt (addDist (dget d current) c) (dget d n)) = true ∧
      relaxStep current unvisited (d, π) (n, c) =
        (setA d n (addDist (dget d current) c), setA π n current)) ∨
     ((unvisited.contains n && dlt (addDist (dget d current) c) (dget d n)) = false ∧
      relaxStep current unvisited (d, π) (n, c) = (d, π))) := by
  unfold relaxStep
  by_cases hmem : unvisited.contains n = true
  · rw [hmem]
    simp only [Bool.not_true, Bool.false_eq_true, if_false, Bool.true_and]
    by_cases hlt : dlt (addDist (dget d current) c) (dget d n) = true
    · left
      rw [if_pos hlt]
      exact ⟨hlt, rfl⟩
    · right
      rw [if_neg hlt]
      exact ⟨Bool.not_eq_true _ ▸ hlt, rfl⟩
  · right
    rw [Bool.not_eq_true] at hmem
    rw [hmem]
    simp

theorem relax_spec (current : String) (unvisited : List String) (qw : ℤ)
    (hcur : current ∉ unvisited) :
    ∀ (l : AdjMap) (d : List (String × Dist)) (π : List (String × String)),
      (l.map Prod.fst).Nodup → dget d current = some qw →
      ∀ x,
        (lookupA l x = none →
          dget (l.foldl (relaxStep current unvisited) (d, π)).1 x = dget d x ∧
          lookupA (l.foldl (relaxStep current unvisited) (d, π)).2 x = lookupA π x) ∧
        (∀ c, lookupA l x = some c →
          ((unvisited.contains x && dlt (some (qw + c)) (dget d x)) = true →
            dget (l.foldl (relaxStep current unvisited) (d, π)).1 x = some (qw + c) ∧
            lookupA (l.foldl (relaxStep current unvisited) (d, π)).2 x = some current) ∧
          ((unvisited.contains x && dlt (some (qw + c)) (dget d x)) = false →
            dget (l.foldl (relaxStep current unvisited) (d, π)).1 x = dget d x ∧
            lookupA (l.foldl (relaxStep current unvisited) (d, π)).2 x = lookupA π x)) := by
  intro l
  induction l with
  | nil =>
    intro d π _ _ x
    constructor
    · intro _
      exact ⟨rfl, rfl⟩
    · intro c hc
      exact absurd hc (by simp [lookupA])
  | cons nc rest ih =>
    obtain ⟨n, c0⟩ := nc
    intro d π hnd hd x
    rw [List.map_cons, List.nodup_cons] at hnd
    obtain ⟨hnmem, hndrest⟩ := hnd
    have hstep := relaxStep_cases current unvisited d π n c0
    have hd1cur : dget (relaxStep current unvisited (d, π) (n, c0)).1 current = some qw := by
      rcases hstep with ⟨hcond, heq⟩ | ⟨hcond, heq⟩
      · rw [heq]
        simp only
        rw [dget_setA]
        have hnc : ¬ n = current := by
          intro hcc
          rw [Bool.and_eq_true] at hcond
          have := List.mem_of_elem_eq_true hcond.1
          rw [hcc] at this
          exact hcur this
        rw [if_neg hnc]
        exact hd
      · rw [heq]
        exact hd
    have hB : ∀ y, ¬ n = y →
        dget (relaxStep current unvisited (d, π) (n, c0)).1 y = dget d y ∧
        lookupA (relaxStep current unvisited (d, π) (n, c0)).2 y = lookupA π y := by
      intro y hny
      rcases hstep with ⟨hcond, heq⟩ | ⟨hcond, heq⟩
      · rw [heq]
        constructor
        · simp only
          rw [dget_setA, if_neg hny]
        · simp only
          rw [lookupA_setA, if_neg hny]
      · rw [heq]
        exact ⟨rfl, rfl⟩
    rw [List.foldl_cons]
    have ihx := ih (relaxStep current unvisited (d, π) (n, c0)).1
        (relaxStep current unvisited (d, π) (n, c0)).2 hndrest hd1cur x
    rw [Prod.mk.eta] at ihx
    by_cases hnx : n = x
    · subst hnx
      constructor
      · intro hcontra
        unfold lookupA at hcontra
        rw [if_pos rfl] at hcontra
        exact Option.noConfusion hcontra
      · intro c hc
        unfold lookupA at hc
        rw [if_pos rfl] at hc
        injection hc with hc
        subst hc
        have hrestnone : lookupA rest n = none := by
          rw [lookupA_eq_none_iff]
          exact hnmem
        have hunch := ihx.1 hrestnone
        have haddD : addDist (dget d current) c0 = some (qw + c0) := by
          rw [hd]
          rfl
        constructor
        · intro hcond
          rcases hstep with ⟨hcond2, heq⟩ | ⟨hcond2, heq⟩
          · rw [heq] at hunch ⊢
            constructor
            · rw [hunch.1, dget_setA, if_pos rfl, haddD]
            · rw [hunch.2, lookupA_setA, if_pos rfl]
          · rw [haddD] at hcond2
            rw [hcond2] at hcond
            exact Bool.noConfusion hcond
        · intro hcond
          rcases hstep with ⟨hcond2, heq⟩ | ⟨hcond2, heq⟩
          · rw [haddD] at hcond2
            rw [hcond2] at hcond
            exact Bool.noConfusion hcond
          · rw [heq] at hunch ⊢
            exact hunch
    · have hBx := hB x hnx
      constructor
      · intro hnone
        unfold lookupA at hnone
        rw [if_neg hnx] at hnone
        have := ihx.1 hnone
        rw [this.1, this.2, hBx.1, hBx.2]
        exact ⟨rfl, rfl⟩
      · intro c hc
        unfold lookupA at hc
        rw [if_neg hnx] at hc
        have hih2 := (ihx.2 c hc)
        constructor
        · intro hcond
          rw [← hBx.1] at hcond
          have := hih2.1 hcond
          exact this
        · intro hcond
          rw [← hBx.1] at hcond
          have := hih2.2 hcond
          rw [this.1, this.2, hBx.1, hBx.2]
          exact ⟨rfl, rfl⟩

/-- The digest of `relax_spec` for `processNeighbors`: every node either
keeps its distance and predecessor, or is an unvisited neighbour of
`current` that is lowered to `qw + c` with predecessor `current`. -/
theorem processNeighbors_digest (current : String) (g : Graph)
    (unvisited : List String) (d : List (String × Dist))
    (π : List (String × String)) (qw : ℤ)
    (hadj : ((adjOf g current).map Prod.fst).Nodup)
    (hcur : current ∉ unvisited) (hd : dget d current = some qw) (x : String) :
    (dget (processNeighbors current g unvisited d π).1 x = dget d x ∧
     lookupA (processNeighbors current g unvisited d π).2 x = lookupA π x) ∨
    (x ∈ unvisited ∧ ∃ c, lookupA (adjOf g current) x = some c ∧
     dlt (some (qw + c)) (dget d x) = true ∧
     dget (processNeighbors current g unvisited d π).1 x = some (qw + c) ∧
     lookupA (processNeighbors current g unvisited d π).2 x = some current) := by
  have hspec := relax_spec current unvisited qw hcur (adjOf g current) d π hadj hd x
  have hfold : processNeighbors current g unvisited d π =
      (adjOf g current).foldl (relaxStep current unvisited) (d, π) := rfl
  rw [hfold]
  cases hlx : lookupA (adjOf g current) x with
  | none => exact Or.inl (hspec.1 hlx)
  | some c =>
    have h2 := hspec.2 c hlx
    by_cases hcond : (unvisited.contains x && dlt (some (qw + c)) (dget d x)) = true
    · right
      rw [Bool.and_eq_true] at hcond
      refine ⟨List.mem_of_elem_eq_true hcond.1, c, rfl, hcond.2, (h2.1 ?_).1, (h2.1 ?_).2⟩
      · rw [Bool.and_eq_true]
        exact hcond
      · rw [Bool.and_eq_true]
        exact hcond
    · left
      exact h2.2 (Bool.not_eq_true _ ▸ hcond)

/-- The complementary fact needed for the relax-closure invariant: an
unvisited neighbour that is not lowered already had a distance at most
`qw + c`. -/
theorem processNeighbors_closure (current : String) (g : Graph)
    (unvisited : List String) (d : List (String × Dist))
    (π : List (String × String)) (qw : ℤ)
    (hadj : ((adjOf g current).map Prod.fst).Nodup)
    (hcur : current ∉ unvisited) (hd : dget d current = some qw) (x : String)
    (hx : x ∈ unvisited) (c : ℤ) (hc : lookupA (adjOf g current) x = some c) :
    ∃ qx, dget (processNeighbors current g unvisited d π).1 x = some qx ∧
      qx ≤ qw + c := by
  have hspec := relax_spec current unvisited qw hcur (adjOf g current) d π hadj hd x
  have hfold : processNeighbors current g unvisited d π =
      (adjOf g current).foldl (relaxStep current unvisited) (d, π) := rfl
  rw [hfold]
  have h2 := hspec.2 c hc
  by_cases hcond : (unvisited.contains x && dlt (some (qw + c)) (dget d x)) = true
  · rcases h2.1 hcond with ⟨h3, _⟩
    exact ⟨qw + c, h3, le_refl _⟩
  · have hcond' := Bool.not_eq_true _ ▸ hcond
    rcases h2.2 hcond' with ⟨h3, _⟩
    rw [Bool.and_eq_false_iff] at hcond'
    rcases hcond' with hcm | hlt
    · have hct : unvisited.contains x = true := List.elem_eq_true_of_mem hx
      rw [hct] at hcm
      exact Bool.noConfusion hcm
    · cases hdx : dget d x with
      | none =>
        rw [hdx, dlt_some_none] at hlt
        exact Bool.noConfusion hlt
      | some qx =>
        rw [hdx, dlt_some_some] at hlt
        have := of_decide_eq_false hlt
        rw [h3, hdx]
        refine ⟨qx, rfl, by linarith⟩

/-! The Dijkstra loop invariant (toward C1). -/

/-- Invariant of the relaxation loop of `dijkstra`, for graph `g` and start
`s`: `σ` is the list of settled nodes in settlement order, `u` the unvisited
list, `d` the distance map, `π` the predecessor map. -/
structure DijkInv (g : Graph) (s : String) (σ u : List String)
    (d : List (String × Dist)) (π : List (String × String)) : Prop where
  perm : (σ ++ u).Perm (g.map Prod.fst)
  s0 : dget d s = some 0
  nonneg : ∀ x q, dget d x = some q → 0 ≤ q
  ub : ∀ x q, dget d x = some q → ∃ p, IsPath g s x p ∧ pathCost g p = q
  πdom : ∀ x v, lookupA π x = some v → x ∈ g.map Prod.fst ∧ v ∈ σ
  πrank : ∀ x v, lookupA π x = some v → x ∈ σ → σ.indexOf v < σ.indexOf x
  πd : ∀ x v, lookupA π x = some v → ∃ qv c, dget d v = some qv ∧
    edgeCost g v x = some c ∧ dget d x = some (qv + c)
  finπ : ∀ x q, x ≠ s → dget d x = some q → lookupA π x ≠ none
  fin : ∀ v ∈ σ, ∃ q, dget d v = some q
  settledMin : ∀ v ∈ σ, ∀ q, dget d v = some q → ∀ p, IsPath g s v p →
    q ≤ pathCost g p
  close : ∀ v ∈ σ, ∀ qv, dget d v = some qv → ∀ x ∈ g.map Prod.fst, ∀ c,
    edgeCost g v x = some c → ∃ qx, dget d x = some qx ∧ qx ≤ qv + c
  σle : ∀ v ∈ σ, ∀ qv, dget d v = some qv → ∀ x ∈ u, ∀ qx,
    dget d x = some qx → qv ≤ qx
  πnd : (π.map Prod.fst).Nodup

theorem dijkInv_parts (g : Graph) (s : String) (σ u : List String)
    (d : List (String × Dist)) (π : List (String × String))
    (hwf : WFGraph g) (inv : DijkInv g s σ u d π) :
    σ.Nodup ∧ u.Nodup ∧ σ.Disjoint u ∧
    (∀ x, x ∈ g.map Prod.fst ↔ x ∈ σ ∨ x ∈ u) := by
  have hnd : (σ ++ u).Nodup := (inv.perm.nodup_iff).mpr hwf.1
  rcases List.nodup_append.mp hnd with ⟨h1, h2, h3⟩
  refine ⟨h1, h2, h3, ?_⟩
  intro x
  rw [← inv.perm.mem_iff, List.mem_append]

theorem dropLast_concat_of_getLast? :
    ∀ (l : List String) (x : String), l.getLast? = some x →
      l.dropLast ++ [x] = l := by
  intro l
  induction l with
  | nil =>
    intro x h
    exact Option.noConfusion h
  | cons a rest ih =>
    intro x h
    cases rest with
    | nil =>
      simp [List.getLast?] at h
      rw [h]
      rfl
    | cons b rest' =>
      rw [List.getLast?_cons_cons] at h
      have := ih x h
      rw [List.dropLast_cons₂, List.cons_append, this]

/-- The frontier bound, derivable from the invariant: the tentative distance
of a node reachable by a path whose strictly earlier nodes are all settled
is finite and at most the cost of that path. -/
theorem inv_frontier (g : Graph) (s : String) (σ u : List String)
    (d : List (String × Dist)) (π : List (String × String))
    (hnn : NonnegCosts g) (inv : DijkInv g s σ u d π)
    (w : String) (hw : w ∈ g.map Prod.fst ∨ w = s)
    (p : List String) (hp : IsPath g s w p) (hpre : ∀ y ∈ p.dropLast, y ∈ σ) :
    ∃ q, dget d w = some q ∧ q ≤ pathCost g p := by
  by_cases hws : w = s
  · subst hws
    exact ⟨0, inv.s0, pathCost_nonneg g hnn p hp.2.2⟩
  · have hwk : w ∈ g.map Prod.fst := by
      rcases hw with h | h
      · exact h
      · exact absurd h hws
    have hsplit : p.dropLast ++ [w] = p := dropLast_concat_of_getLast? p w hp.2.1
    rcases List.eq_nil_or_concat p.dropLast with hdl | ⟨pre, v, hdl⟩
    · rw [hdl] at hsplit
      rw [← hsplit] at hp
      have hws2 : w = s := by
        have h1 := hp.1
        simp at h1
        exact h1
      exact absurd hws2 hws
    · rw [List.concat_eq_append] at hdl
      have hveq : p = (pre ++ [v]) ++ [w] := by
        rw [← hsplit, hdl]
      have hvσ : v ∈ σ := by
        apply hpre
        rw [hdl]
        simp
      have hpfull : IsPath g s w (pre ++ v :: [w]) := by
        have h2 : p = pre ++ v :: [w] := by
          rw [hveq]
          simp
        rw [← h2]
        exact hp
      have hp1 : IsPath g s v (pre ++ [v]) :=
        isPath_prefix g s w pre [w] v hpfull
      have hedge : ∃ c, edgeCost g v w = some c := by
        have hch := hp.2.2
        rw [hveq, List.chain'_append] at hch
        rcases hch with ⟨_, _, hlink⟩
        have := hlink v (List.getLast?_concat pre) w rfl
        cases hc : edgeCost g v w with
        | none =>
          rw [hc] at this
          simp at this
        | some c => exact ⟨c, rfl⟩
      rcases hedge with ⟨c, hc⟩
      rcases inv.fin v hvσ with ⟨qv, hqv⟩
      have hqvle : qv ≤ pathCost g (pre ++ [v]) :=
        inv.settledMin v hvσ qv hqv (pre ++ [v]) hp1
      rcases inv.close v hvσ qv hqv w hwk c hc with ⟨qx, hqx, hqxle⟩
      refine ⟨qx, hqx, ?_⟩
      have hcost : pathCost g p = pathCost g (pre ++ [v]) + (edgeCost g v w).getD 0 := by
        rw [hveq]
        exact pathCost_concat g (pre ++ [v]) v w (List.getLast?_concat pre)
      rw [hcost, hc]
      simp only [Option.getD_some]
      linarith

/-- Selection minimality: the node of minimal tentative distance among the
unvisited is at distance at most the cost of any path reaching it. -/
theorem inv_selMin (g : Graph) (s : String) (σ u : List String)
    (d : List (String × Dist)) (π : List (String × String))
    (hwf : WFGraph g) (hnn : NonnegCosts g) (inv : DijkInv g s σ u d π)
    (w : String) (hw : w ∈ u) (qw : ℤ) (hdw : dget d w = some qw)
    (hmin : ∀ x ∈ u, dlt (dget d x) (some qw) = false)
    (p : List String) (hp : IsPath g s w p) : qw ≤ pathCost g p := by
  rcases dijkInv_parts g s σ u d π hwf inv with ⟨hσnd, hund, hdisj, hmem⟩
  rcases split_first_not (fun y => y ∈ σ) p.dropLast with hall | ⟨pre, y, post, hdl, hyσ, hpreσ⟩
  · rcases inv_frontier g s σ u d π hnn inv w
      (Or.inl ((hmem w).mpr (Or.inr hw))) p hp hall with ⟨q, hq, hle⟩
    rw [hdw] at hq
    injection hq with hq
    rw [hq]
    exact hle
  · have hsplit : p.dropLast ++ [w] = p := dropLast_concat_of_getLast? p w hp.2.1
    have hveq : p = pre ++ y :: (post ++ [w]) := by
      rw [← hsplit, hdl]
      simp
    have hyk : y ∈ g.map Prod.fst := by
      apply mem_dropLast_keys g p y hp.2.2
      rw [hdl]
      simp
    have hp1 : IsPath g s y (pre ++ [y]) := by
      apply isPath_prefix g s w pre (post ++ [w]) y
      rw [← hveq]
      exact hp
    have hdl1 : (pre ++ [y]).dropLast = pre := List.dropLast_concat
    rcases inv_frontier g s σ u d π hnn inv y (Or.inl hyk) (pre ++ [y]) hp1
      (by rw [hdl1]; exact hpreσ) with ⟨qy, hqy, hqyle⟩
    have hyu : y ∈ u := by
      rcases (hmem y).mp hyk with h | h
      · exact absurd h hyσ
      · exact h
    have hwy : qw ≤ qy := by
      have := hmin y hyu
      rw [hqy, dlt_some_some] at this
      have := of_decide_eq_false this
      linarith
    have hcost : pathCost g p =
        pathCost g (pre ++ [y]) + pathCost g (y :: (post ++ [w])) := by
      rw [hveq]
      exact pathCost_append g pre y (post ++ [w])
    have hsuf : 0 ≤ pathCost g (y :: (post ++ [w])) := by
      apply pathCost_nonneg g hnn
      apply chain'_suffix g s w pre (post ++ [w]) y
      rw [← hveq]
      exact hp
    rw [hcost]
    linarith

theorem wf_adjOf_nodup (g : Graph) (hwf : WFGraph g) (x : String) :
    ((adjOf g x).map Prod.fst).Nodup := by
  unfold adjOf
  cases hl : lookupA g x with
  | none => simp
  | some adj =>
    simp only [Option.getD_some]
    exact hwf.2 (x, adj) (lookupA_mem g x adj hl)

theorem indexOf_append_left (l t : List String) (x : String) (h : x ∈ l) :
    (l ++ t).indexOf x = l.indexOf x := by
  induction l with
  | nil => simp at h
  | cons a rest ih =>
    by_cases hax : a = x
    · subst hax
      simp [List.indexOf_cons]
    · rcases List.mem_cons.mp h with h1 | h1
      · exact absurd h1.symm hax
      · rw [List.cons_append]
        rw [List.indexOf_cons, List.indexOf_cons]
        have hbeq : (a == x) = false := by
          rw [beq_eq_false_iff_ne]
          exact hax
        rw [hbeq]
        simp [ih h1]

theorem indexOf_append_self (l : List String) (x : String) (h : x ∉ l) :
    (l ++ [x]).indexOf x = l.length := by
  induction l with
  | nil => simp
  | cons a rest ih =>
    have hax : ¬ a = x := by
      intro hc
      exact h (hc ▸ List.mem_cons_self a rest)
    rw [List.cons_append, List.indexOf_cons]
    have hbeq : (a == x) = false := by
      rw [beq_eq_false_iff_ne]
      exact hax
    rw [hbeq]
    have : x ∉ rest := fun hc => h (List.mem_cons_of_mem a hc)
    simp [ih this]

theorem processNeighbors_πnd (current : String) (g : Graph)
    (unvisited : List String) (d : List (String × Dist))
    (π : List (String × String)) (hnd : (π.map Prod.fst).Nodup) :
    ((processNeighbors current g unvisited d π).2.map Prod.fst).Nodup := by
  unfold processNeighbors
  refine foldl_preserve (fun dp => (dp.2.map Prod.fst).Nodup) _ ?_ _ (d, π) hnd
  intro acc nc hacc
  unfold relaxStep
  by_cases hmem : !(unvisited.contains nc.1)
  · rw [if_pos hmem]
    exact hacc
  · rw [if_neg hmem]
    by_cases hrel : dlt (addDist (dget acc.1 current) nc.2) (dget acc.1 nc.1)
    · rw [if_pos hrel]
      exact nodup_keys_setA _ _ _ hacc
    · rw [if_neg hrel]
      exact hacc

/-- One settling step of the relaxation loop preserves the invariant. -/
theorem dijkInv_step (g : Graph) (s : String)
    (hwf : WFGraph g) (hnn : NonnegCosts g)
    (σ u : List String) (d : List (String × Dist)) (π : List (String × String))
    (inv : DijkInv g s σ u d π)
    (w : String) (hw : w ∈ u) (qw : ℤ) (hdw : dget d w = some qw)
    (hmin : ∀ x ∈ u, dlt (dget d x) (some qw) = false) :
    DijkInv g s (σ ++ [w]) (u.erase w)
      (processNeighbors w g (u.erase w) d π).1
      (processNeighbors w g (u.erase w) d π).2 := by
  rcases dijkInv_parts g s σ u d π hwf inv with ⟨hσnd, hund, hdisj, hmem⟩
  have hwk : w ∈ g.map Prod.fst := (hmem w).mpr (Or.inr hw)
  have hadj : ((adjOf g w).map Prod.fst).Nodup := wf_adjOf_nodup g hwf w
  have hwσ : w ∉ σ := fun hc => hdisj hc hw
  have hcurnot : w ∉ u.erase w := by
    intro hc
    rw [List.Nodup.mem_erase_iff hund] at hc
    exact hc.1 rfl
  have herase_sub : ∀ x, x ∈ u.erase w → x ∈ u :=
    fun x hx => List.mem_of_mem_erase hx
  have hmem_erase : ∀ x, x ∈ u.erase w ↔ x ≠ w ∧ x ∈ u :=
    fun x => List.Nodup.mem_erase_iff hund
  have hσnotu' : ∀ v, v ∈ σ → v ∉ u.erase w :=
    fun v hv hc => hdisj hv (herase_sub v hc)
  have digest := fun x => processNeighbors_digest w g (u.erase w) d π qw hadj hcurnot hdw x
  have hlow_edge : ∀ x c, lookupA (adjOf g w) x = some c → edgeCost g w x = some c := by
    intro x c hx
    rw [edgeCost_eq_adjOf]
    exact hx
  have hedge_adj : ∀ x c, edgeCost g w x = some c → lookupA (adjOf g w) x = some c := by
    intro x c hx
    rw [edgeCost_eq_adjOf] at hx
    exact hx
  have hnotu : ∀ v, v ∉ u.erase w →
      dget (processNeighbors w g (u.erase w) d π).1 v = dget d v ∧
      lookupA (processNeighbors w g (u.erase w) d π).2 v = lookupA π v := by
    intro v hv
    rcases digest v with h | ⟨h1, _⟩
    · exact h
    · exact absurd h1 hv
  have hqw0 : 0 ≤ qw := inv.nonneg w qw hdw
  refine ⟨?_, ?_, ?_, ?_, ?_, ?_, ?_, ?_, ?_, ?_, ?_, ?_, ?_⟩
  -- perm
  · have h1 : u.Perm (w :: u.erase w) := List.perm_cons_erase hw
    have h2 : ((σ ++ [w]) ++ u.erase w).Perm (σ ++ u) := by
      rw [List.append_assoc]
      exact List.Perm.append_left σ h1.symm
    exact h2.trans inv.perm
  -- s0
  · rcases digest s with h | ⟨hsu, c, hc, hdlt, _, _⟩
    · rw [h.1]
      exact inv.s0
    · have hc0 : 0 ≤ c := edgeCost_nonneg g hnn w s c (hlow_edge s c hc)
      rw [inv.s0, dlt_some_some] at hdlt
      have := of_decide_eq_true hdlt
      linarith
  -- nonneg
  · intro x q hq
    rcases digest x with h | ⟨hsu, c, hc, hdlt, hset, _⟩
    · rw [h.1] at hq
      exact inv.nonneg x q hq
    · rw [hset] at hq
      injection hq with hq
      have hc0 : 0 ≤ c := edgeCost_nonneg g hnn w x c (hlow_edge x c hc)
      rw [← hq]
      linarith
  -- ub
  · intro x q hq
    rcases digest x with h | ⟨hsu, c, hc, hdlt, hset, _⟩
    · rw [h.1] at hq
      exact inv.ub x q hq
    · rw [hset] at hq
      injection hq with hq
      rcases inv.ub w qw hdw with ⟨pw, hpw, hcw⟩
      have hisw : (edgeCost g w x).isSome = true := by
        rw [hlow_edge x c hc]
        rfl
      refine ⟨pw ++ [x], isPath_append g s w x pw hpw hisw, ?_⟩
      rw [pathCost_concat g pw w x hpw.2.1, hlow_edge x c hc]
      simp only [Option.getD_some]
      rw [hcw, hq]
  -- πdom
  · intro x v hx
    rcases digest x with h | ⟨hsu, c, hc, hdlt, _, hπ⟩
    · rw [h.2] at hx
      rcases inv.πdom x v hx with ⟨h1, h2⟩
      exact ⟨h1, List.mem_append_left [w] h2⟩
    · rw [hπ] at hx
      injection hx with hx
      refine ⟨(hmem x).mpr (Or.inr (herase_sub x hsu)), ?_⟩
      rw [← hx]
      exact List.mem_append_right σ (List.mem_singleton_self w)
  -- πrank
  · intro x v hx hxσ'
    rcases digest x with h | ⟨hsu, c, hc, hdlt, _, hπ⟩
    · rw [h.2] at hx
      have hvσ : v ∈ σ := (inv.πdom x v hx).2
      have hidxv : (σ ++ [w]).indexOf v = σ.indexOf v := indexOf_append_left σ [w] v hvσ
      rcases List.mem_append.mp hxσ' with hxσ | hxw
      · rw [hidxv, indexOf_append_left σ [w] x hxσ]
        exact inv.πrank x v hx hxσ
      · have hxw2 : x = w := by
          rcases List.mem_singleton.mp hxw with h1
          exact h1
        rw [hxw2, hidxv, indexOf_append_self σ w hwσ]
        exact List.indexOf_lt_length.mpr hvσ
    · exfalso
      rcases List.mem_append.mp hxσ' with hxσ | hxw
      · exact hdisj hxσ (herase_sub x hsu)
      · rw [List.mem_singleton.mp hxw] at hsu
        exact hcurnot hsu
  -- πd
  · intro x v hx
    rcases digest x with h | ⟨hsu, c, hc, hdlt, hset, hπ⟩
    · rw [h.2] at hx
      rcases inv.πd x v hx with ⟨qv, c, hqv, hc, hqx⟩
      have hvσ : v ∈ σ := (inv.πdom x v hx).2
      refine ⟨qv, c, ?_, hc, ?_⟩
      · rw [(hnotu v (hσnotu' v hvσ)).1]
        exact hqv
      · rw [h.1]
        exact hqx
    · rw [hπ] at hx
      injection hx with hx
      refine ⟨qw, c, ?_, ?_, ?_⟩
      · rw [← hx, (hnotu w hcurnot).1]
        exact hdw
      · rw [← hx]
        exact hlow_edge x c hc
      · exact hset
  -- finπ
  · intro x q hxs hq
    rcases digest x with h | ⟨hsu, c, hc, hdlt, hset, hπ⟩
    · rw [h.1] at hq
      rw [h.2]
      exact inv.finπ x q hxs hq
    · rw [hπ]
      exact Option.noConfusion
  -- fin
  · intro v hv
    rcases List.mem_append.mp hv with hvσ | hvw
    · rcases inv.fin v hvσ with ⟨q, hq⟩
      refine ⟨q, ?_⟩
      rw [(hnotu v (hσnotu' v hvσ)).1]
      exact hq
    · rw [List.mem_singleton.mp hvw]
      refine ⟨qw, ?_⟩
      rw [(hnotu w hcurnot).1]
      exact hdw
  -- settledMin
  · intro v hv q hq p hp
    rcases List.mem_append.mp hv with hvσ | hvw
    · rw [(hnotu v (hσnotu' v hvσ)).1] at hq
      exact inv.settledMin v hvσ q hq p hp
    · have hvw2 := List.mem_singleton.mp hvw
      subst hvw2
      rw [(hnotu v hcurnot).1] at hq
      rw [hdw] at hq
      injection hq with hq
      rw [← hq]
      exact inv_selMin g s σ u d π hwf hnn inv v hw qw hdw hmin p hp
  -- close
  · intro v hv qv hqv x hxk c hc
    rcases List.mem_append.mp hv with hvσ | hvw
    · rw [(hnotu v (hσnotu' v hvσ)).1] at hqv
      rcases inv.close v hvσ qv hqv x hxk c hc with ⟨qx0, hqx0, hqx0le⟩
      rcases digest x with h | ⟨hsu, c2, hc2, hdlt2, hset2, _⟩
      · refine ⟨qx0, ?_, hqx0le⟩
        rw [h.1]
        exact hqx0
      · refine ⟨qw + c2, hset2, ?_⟩
        rw [hqx0, dlt_some_some] at hdlt2
        have := of_decide_eq_true hdlt2
        linarith
    · have hvw2 := List.mem_singleton.mp hvw
      subst hvw2
      have hqv2 : dget d v = some qv := by
        rw [← (hnotu v hcurnot).1]
        exact hqv
      rw [hdw] at hqv2
      injection hqv2 with hqv2
      have hc0 : 0 ≤ c := edgeCost_nonneg g hnn v x c hc
      by_cases hxv : x = v
      · refine ⟨qv, ?_, by linarith⟩
        rw [hxv, (hnotu v hcurnot).1, hdw, hqv2]
      · rcases (hmem x).mp hxk with hxσ | hxu
        · rcases inv.fin x hxσ with ⟨qx0, hqx0⟩
          have hle : qx0 ≤ qw := inv.σle x hxσ qx0 hqx0 v hw qw hdw
          refine ⟨qx0, ?_, ?_⟩
          · rw [(hnotu x (hσnotu' x hxσ)).1]
            exact hqx0
          · rw [← hqv2]
            linarith
        · have hxe : x ∈ u.erase v := by
            rw [hmem_erase x]
            exact ⟨hxv, hxu⟩
          rcases processNeighbors_closure v g (u.erase v) d π qw hadj hcurnot hdw
            x hxe c (hedge_adj x c hc) with ⟨qx, hqx, hqxle⟩
          refine ⟨qx, hqx, ?_⟩
          rw [← hqv2]
          linarith
  -- σle
  · intro v hv qv hqv x hx qx hqx
    rcases List.mem_append.mp hv with hvσ | hvw
    · rw [(hnotu v (hσnotu' v hvσ)).1] at hqv
      rcases digest x with h | ⟨hsu, c2, hc2, hdlt2, hset2, _⟩
      · rw [h.1] at hqx
        exact inv.σle v hvσ qv hqv x (herase_sub x hx) qx hqx
      · rw [hset2] at hqx
        injection hqx with hqx
        have hle : qv ≤ qw := inv.σle v hvσ qv hqv w hw qw hdw
        have hc0 : 0 ≤ c2 := edgeCost_nonneg g hnn w x c2 (hlow_edge x c2 hc2)
        linarith
    · have hvw2 := List.mem_singleton.mp hvw
      subst hvw2
      rw [(hnotu v hcurnot).1, hdw] at hqv
      injection hqv with hqv
      subst hqv
      rcases digest x with h | ⟨hsu, c2, hc2, hdlt2, hset2, _⟩
      · rw [h.1] at hqx
        have := hmin x (herase_sub x hx)
        rw [hqx, dlt_some_some] at this
        have := of_decide_eq_false this
        linarith
      · rw [hset2] at hqx
        injection hqx with hqx
        have hc0 : 0 ≤ c2 := edgeCost_nonneg g hnn v x c2 (hlow_edge x c2 hc2)
        linarith
  -- πnd
  · exact processNeighbors_πnd w g (u.erase w) d π inv.πnd

/-- Postcondition of the relaxation loop: the invariant still holds, the end
node is still unvisited, and either every unvisited node is unreachable
(`Infinity`) or the end node carries a distance no path can beat. -/
theorem dijkstraLoop_post (g : Graph) (s e : String)
    (hwf : WFGraph g) (hnn : NonnegCosts g) (hne : "" ∉ g.map Prod.fst) :
    ∀ (fuel : Nat) (σ u : List String) (d : List (String × Dist))
      (π : List (String × String)),
      DijkInv g s σ u d π → e ∈ u → u.length ≤ fuel →
      ∃ σ' u' d' π',
        dijkstraLoop g e fuel u d π = (u', d', π') ∧
        DijkInv g s σ' u' d' π' ∧ e ∈ u' ∧
        ((∀ x ∈ u', dget d' x = none) ∨
         (∃ qe, dget d' e = some qe ∧ ∀ p, IsPath g s e p → qe ≤ pathCost g p)) := by
  intro fuel
  induction fuel with
  | zero =>
    intro σ u d π inv he hlen
    exfalso
    rw [Nat.le_zero] at hlen
    rw [List.length_eq_zero] at hlen
    rw [hlen] at he
    simp at he
  | succ f ih =>
    intro σ u d π inv he hlen
    simp only [dijkstraLoop]
    by_cases hemp : u.isEmpty
    · rw [if_pos hemp]
      exfalso
      cases u with
      | nil => simp at he
      | cons a rest => simp at hemp
    · rw [if_neg hemp]
      cases hminv : getMinDistanceNode u d with
      | none =>
        exact ⟨σ, u, d, π, rfl, inv, he, Or.inl (getMin_none u d hminv)⟩
      | some current =>
        dsimp only
        rcases getMin_spec u d current hminv with ⟨qw, hdw, hminp⟩
        have hcu : current ∈ u := getMinDistanceNode_mem u d current hminv
        have hcne : current ≠ "" := by
          intro hc
          rcases dijkInv_parts g s σ u d π hwf inv with ⟨_, _, _, hmem⟩
          exact hne (hc ▸ (hmem current).mpr (Or.inr hcu))
        by_cases hce : current = e
        · have hbrk : (current = "" || current = e) = true := by
            rw [hce]
            simp
          rw [if_pos hbrk]
          subst hce
          refine ⟨σ, u, d, π, rfl, inv, he, Or.inr ⟨qw, hdw, ?_⟩⟩
          intro p hp
          exact inv_selMin g s σ u d π hwf hnn inv current hcu qw hdw hminp p hp
        · have hbrk : (current = "" || current = e) = false := by
            simp [hcne, hce]
          rw [if_neg (by rw [hbrk]; exact Bool.false_ne_true)]
          have hstep := dijkInv_step g s hwf hnn σ u d π inv current hcu qw hdw hminp
          have hlen' : (u.erase current).length ≤ f := by
            have h1 := List.length_erase_of_mem hcu
            have h2 : 1 ≤ u.length := by
              cases u with
              | nil => simp at hcu
              | cons a rest => simp
            omega
          have he' : e ∈ u.erase current := by
            rcases dijkInv_parts g s σ u d π hwf inv with ⟨_, hund, _, _⟩
            rw [List.Nodup.mem_erase_iff hund]
            exact ⟨fun h => hce h.symm, he⟩
          exact ih (σ ++ [current]) (u.erase current) _ _ hstep he' hlen'

theorem dedupFirstAux_eq_self :
    ∀ (l seen : List String), l.Nodup → (∀ x ∈ l, x ∉ seen) →
      dedupFirstAux seen l = l := by
  intro l
  induction l with
  | nil =>
    intro seen _ _
    rfl
  | cons a rest ih =>
    intro seen hnd hds
    rw [List.nodup_cons] at hnd
    unfold dedupFirstAux
    have hca : ¬ seen.contains a = true := by
      intro hc
      exact hds a (List.mem_cons_self a rest) (List.mem_of_elem_eq_true hc)
    rw [if_neg hca]
    congr 1
    refine ih (a :: seen) hnd.2 ?_
    intro x hx
    intro hc
    rcases List.mem_cons.mp hc with h1 | h1
    · exact hnd.1 (h1 ▸ hx)
    · exact hds x (List.mem_cons_of_mem a hx) h1

theorem dedupFirst_eq_self (l : List String) (h : l.Nodup) : dedupFirst l = l := by
  unfold dedupFirst
  refine dedupFirstAux_eq_self l [] h ?_
  intro x _ hc
  simp at hc

/-- The settled list is no longer than the predecessor map once the end node
has an entry: every settled node other than the start has an entry, and so
does the (unsettled) end node. -/
theorem sigma_length_le_pi (g : Graph) (s : String) (σ u : List String)
    (d : List (String × Dist)) (π : List (String × String))
    (inv : DijkInv g s σ u d π) (hσnd : σ.Nodup)
    (e : String) (heσ : e ∉ σ) (heπ : e ∈ π.map Prod.fst) :
    σ.length ≤ π.length := by
  have hsub : ∀ v ∈ σ, v ≠ s → v ∈ π.map Prod.fst := by
    intro v hv hvs
    rcases inv.fin v hv with ⟨q, hq⟩
    have hne := inv.finπ v q hvs hq
    cases hl : lookupA π v with
    | none => exact absurd hl hne
    | some w => exact List.mem_map.mpr ⟨(v, w), lookupA_mem π v w hl, rfl⟩
  have hlnd : (e :: σ.filter (fun x => x ≠ s)).Nodup := by
    rw [List.nodup_cons]
    exact ⟨fun hc => heσ (List.mem_of_mem_filter hc), hσnd.filter _⟩
  have hlsub : (e :: σ.filter (fun x => x ≠ s)) ⊆ π.map Prod.fst := by
    intro x hx
    rcases List.mem_cons.mp hx with h | h
    · exact h ▸ heπ
    · have h1 := List.mem_of_mem_filter h
      have h2 := List.of_mem_filter h
      exact hsub x h1 (of_decide_eq_true h2)
  have hflen : ∀ t : List String, t.Nodup →
      t.length ≤ (t.filter (fun x => x ≠ s)).length + 1 := by
    intro t
    induction t with
    | nil =>
      intro _
      simp
    | cons a rest ih =>
      intro hnd
      rw [List.nodup_cons] at hnd
      by_cases has : a = s
      · subst has
        rw [List.filter_cons_of_neg (by simp)]
        have hrest : rest.filter (fun x => x ≠ a) = rest := by
          rw [List.filter_eq_self]
          intro x hx
          simp
          intro hc
          exact hnd.1 (hc ▸ hx)
        rw [hrest]
        simp
      · rw [List.filter_cons_of_pos (by simp [has])]
        have := ih hnd.2
        simp only [List.length_cons]
        omega
  have hcard : (e :: σ.filter (fun x => x ≠ s)).length ≤ (π.map Prod.fst).length :=
    (hlnd.subperm hlsub).length_le
  have h1 := hflen σ hσnd
  simp only [List.length_cons] at hcard
  rw [List.length_map] at hcard
  omega

/-- Following the predecessor chain from a settled node reconstructs a path
from the start whose cost is the recorded tentative distance. -/
theorem walkBack_inv_chain (g : Graph) (s : String) (σ u : List String)
    (d : List (String × Dist)) (π : List (String × String))
    (hne : "" ∉ g.map Prod.fst) (inv : DijkInv g s σ u d π) :
    ∀ (n : Nat), ∀ c, c ∈ σ → σ.indexOf c ≤ n →
      ∀ (fuel : Nat), n < fuel → ∀ (acc : List String),
      ∃ p qc, walkBack s π fuel (some c) acc = some (p ++ acc) ∧
        IsPath g s c p ∧ dget d c = some qc ∧ pathCost g p = qc := by
  intro n
  induction n using Nat.strong_induction_on with
  | _ n ih =>
    intro c hcσ hcidx fuel hfuel acc
    have hck : c ∈ g.map Prod.fst := by
      rw [← inv.perm.mem_iff, List.mem_append]
      exact Or.inl hcσ
    have hcne : c ≠ "" := fun hc => hne (hc ▸ hck)
    by_cases hcs : c = s
    · subst hcs
      refine ⟨[c], 0, ?_, isPath_single g c, inv.s0, rfl⟩
      cases fuel with
      | zero =>
        simp only [walkBack]
        rw [if_neg hcne]
        simp
      | succ f =>
        simp only [walkBack]
        rw [if_neg hcne]
        simp
    · rcases inv.fin c hcσ with ⟨qc, hqc⟩
      have hπc : lookupA π c ≠ none := inv.finπ c qc hcs hqc
      cases hlc : lookupA π c with
      | none => exact absurd hlc hπc
      | some v =>
        have hvσ : v ∈ σ := (inv.πdom c v hlc).2
        have hrank : σ.indexOf v < σ.indexOf c := inv.πrank c v hlc hcσ
        rcases inv.πd c v hlc with ⟨qv, cst, hqv, hcst, hqc2⟩
        have hqceq : qc = qv + cst := by
          rw [hqc] at hqc2
          injection hqc2
        have hvk : v ∈ g.map Prod.fst := by
          rw [← inv.perm.mem_iff, List.mem_append]
          exact Or.inl hvσ
        have hvne : v ≠ "" := fun hc => hne (hc ▸ hvk)
        cases fuel with
        | zero => omega
        | succ f =>
          have hstep : walkBack s π (f + 1) (some c) acc =
              walkBack s π f (prevStep π c) (c :: acc) := by
            simp only [walkBack]
            rw [if_neg hcne, if_neg hcs]
          have hprev : prevStep π c = some v := by
            unfold prevStep
            rw [hlc]
            dsimp only
            rw [if_neg hvne]
          have hidxvn : σ.indexOf v < n := lt_of_lt_of_le hrank hcidx
          have hfv : σ.indexOf v < f := by omega
          rcases ih (σ.indexOf v) hidxvn v hvσ (le_refl _) f hfv (c :: acc) with
            ⟨pv, qv', hwb, hpv, hqv', hcostv⟩
          have hqveq : qv' = qv := by
            rw [hqv] at hqv'
            injection hqv' with h
            exact h.symm
          refine ⟨pv ++ [c], qc, ?_, ?_, hqc, ?_⟩
          · rw [hstep, hprev, hwb, List.append_assoc]
            rfl
          · refine isPath_append g s v c pv hpv ?_
            rw [hcst]
            rfl
          · rw [pathCost_concat g pv v c hpv.2.1, hcst]
            simp only [Option.getD_some]
            rw [hcostv, hqveq, hqceq]

/-- When every remaining unvisited node is at `Infinity`, no path can leave
the settled region: a path from a settled node to an unvisited node would
cross the frontier, and the relax closure would have given the first node
after the crossing a finite distance. -/
theorem no_crossing (g : Graph) (s : String) (σ u : List String)
    (d : List (String × Dist)) (π : List (String × String))
    (hwf : WFGraph g) (inv : DijkInv g s σ u d π)
    (hinf : ∀ x ∈ u, dget d x = none) :
    ∀ (p : List String) (a b : String), IsPath g a b p →
      a ∈ σ → b ∈ u → False := by
  rcases dijkInv_parts g s σ u d π hwf inv with ⟨_, _, hdisj, hmem⟩
  intro p
  induction p with
  | nil =>
    intro a b hp _ _
    exact Option.noConfusion hp.1
  | cons x rest ihp =>
    intro a b hp haσ hbu
    have hax : x = a := by
      have := hp.1
      simp at this
      exact this
    subst hax
    cases rest with
    | nil =>
      have hab : x = b := by
        have := hp.2.1
        simp at this
        exact this
      exact hdisj haσ (hab ▸ hbu)
    | cons y rest' =>
      have hedge : (edgeCost g x y).isSome = true :=
        (List.chain'_cons.mp hp.2.2).1
      have hyk : y ∈ g.map Prod.fst := by
        cases rest' with
        | nil =>
          have hyb : y = b := by
            have := hp.2.1
            simp [List.getLast?] at this
            exact this
          rw [← inv.perm.mem_iff, List.mem_append]
          exact Or.inr (hyb ▸ hbu)
        | cons z rest2 =>
          have : (edgeCost g y z).isSome = true :=
            (List.chain'_cons.mp (List.chain'_cons.mp hp.2.2).2).1
          exact edgeCost_mem_keys g y z this
      rcases (hmem y).mp hyk with hyσ | hyu
      · have hpy : IsPath g y b (y :: rest') := by
          refine ⟨rfl, ?_, (List.chain'_cons.mp hp.2.2).2⟩
          have := hp.2.1
          rw [List.getLast?_cons_cons] at this
          exact this
        exact ihp y b hpy hyσ hbu
      · rcases inv.fin x haσ with ⟨qx, hqx⟩
        cases hc : edgeCost g x y with
        | none =>
          rw [hc] at hedge
          simp at hedge
        | some cst =>
          rcases inv.close x haσ qx hqx y hyk cst hc with ⟨qy, hqy, _⟩
          rw [hinf y hyu] at hqy
          exact Option.noConfusion hqy

theorem walkBack_none (s : String) (π : List (String × String)) :
    ∀ (fuel : Nat) (acc : List String), walkBack s π fuel none acc = none := by
  intro fuel acc
  cases fuel with
  | zero => rfl
  | succ f => rfl

/-- The state entering the first loop iteration satisfies the invariant:
nothing is settled, every key is unvisited, the start is at 0 and every
other node at `Infinity`, and the predecessor map is empty. -/
theorem dijkInv_init (g : Graph) (s : String) :
    DijkInv g s [] (g.map Prod.fst)
      (setA ((g.map Prod.fst).foldl (fun d node => setA d node none) []) s (some 0))
      [] := by
  have hd : ∀ x,
      dget (setA ((g.map Prod.fst).foldl (fun d node => setA d node none) [])
        s (some 0)) x = if s = x then some 0 else none := by
    intro x
    rw [dget_setA]
    by_cases h : s = x
    · rw [if_pos h, if_pos h]
    · rw [if_neg h, if_neg h]
      exact dget_init (g.map Prod.fst) [] (fun _ => rfl) x
  refine ⟨?_, ?_, ?_, ?_, ?_, ?_, ?_, ?_, ?_, ?_, ?_, ?_, ?_⟩
  · rw [List.nil_append]
  · rw [hd s, if_pos rfl]
  · intro x q hq
    rw [hd x] at hq
    by_cases h : s = x
    · rw [if_pos h] at hq
      injection hq with h1
      omega
    · rw [if_neg h] at hq
      exact Option.noConfusion hq
  · intro x q hq
    rw [hd x] at hq
    by_cases h : s = x
    · rw [if_pos h] at hq
      injection hq with h1
      subst h
      exact ⟨[s], isPath_single g s, h1⟩
    · rw [if_neg h] at hq
      exact Option.noConfusion hq
  · intro x v hl
    exact Option.noConfusion hl
  · intro x v hl
    exact Option.noConfusion hl
  · intro x v hl
    exact Option.noConfusion hl
  · intro x q hxs hq
    rw [hd x, if_neg (fun h => hxs h.symm)] at hq
    exact Option.noConfusion hq
  · intro v hv
    exact absurd hv (List.not_mem_nil v)
  · intro v hv
    exact absurd hv (List.not_mem_nil v)
  · intro v hv
    exact absurd hv (List.not_mem_nil v)
  · intro v hv
    exact absurd hv (List.not_mem_nil v)
  · exact List.nodup_nil

/-- C1 (amended: the empty-string identifier must not be a key of the graph;
the original claim is refuted by `dijkstra_correct_counterexample` because
the falsy `""` aborts both the selection loop and the predecessor walk-back):
on a well-formed graph with non-negative costs and no `""` key, for start and
end keys of the graph, `dijkstra` returns a result exactly when a path from
start to end exists, and any returned pair is a path from start to end in the
graph whose recorded cost is its path cost and is minimal among all
start-to-end paths. -/
theorem dijkstra_correct (g : Graph) (s e : String)
    (hwf : WFGraph g) (hnn : NonnegCosts g) (hne : "" ∉ g.map Prod.fst)
    (hs : s ∈ g.map Prod.fst) (he : e ∈ g.map Prod.fst) :
    ((dijkstra g s e).isSome = true ↔ ∃ p, IsPath g s e p) ∧
    (∀ p c, dijkstra g s e = some (p, c) →
      IsPath g s e p ∧ pathCost g p = c ∧
      ∀ q, IsPath g s e q → c ≤ pathCost g q) := by
  have hsne : s ≠ "" := fun h => hne (h ▸ hs)
  have hene : e ≠ "" := fun h => hne (h ▸ he)
  by_cases hes : e = s
  · subst hes
    rw [dijkstra_self g e hsne]
    constructor
    · constructor
      · intro _
        exact ⟨[e], isPath_single g e⟩
      · intro _
        rfl
    · intro p c h
      injection h with h1
      rw [Prod.mk.injEq] at h1
      obtain ⟨hp1, hc1⟩ := h1
      subst hp1
      subst hc1
      refine ⟨isPath_single g e, rfl, ?_⟩
      intro q hq
      exact pathCost_nonneg g hnn q hq.2.2
  · have hdd : dedupFirst (g.map Prod.fst) = g.map Prod.fst :=
      dedupFirst_eq_self _ hwf.1
    have inv0 := dijkInv_init g s
    rcases dijkstraLoop_post g s e hwf hnn hne ((g.map Prod.fst).length + 1)
      [] (g.map Prod.fst)
      (setA ((g.map Prod.fst).foldl (fun d node => setA d node none) []) s (some 0))
      [] inv0 he (Nat.le_succ _) with ⟨σ', u', d', π', hloop, inv', he', hdich⟩
    rcases dijkInv_parts g s σ' u' d' π' hwf inv' with ⟨hσnd, hund, hdisj, hmemiff⟩
    have heσ : e ∉ σ' := fun hc => hdisj hc he'
    have hdij : dijkstra g s e =
        match reconstructPath s e π' with
        | none => none
        | some path => some (path, (dget d' e).getD 0) := by
      simp only [dijkstra]
      rw [hdd, hloop]
    rcases hdich with hinf | ⟨qe, hqe, hmin⟩
    · have hde : dget d' e = none := hinf e he'
      have hπe : lookupA π' e = none := by
        cases hl : lookupA π' e with
        | none => rfl
        | some v =>
          rcases inv'.πd e v hl with ⟨qv, cst, _, _, hde2⟩
          rw [hde] at hde2
          exact Option.noConfusion hde2
      have hprevE : prevStep π' e = none := by
        unfold prevStep
        rw [hπe]
      have hrec : reconstructPath s e π' = none := by
        unfold reconstructPath
        simp only [walkBack]
        rw [if_neg hene, if_neg hes, hprevE]
        exact walkBack_none s π' π'.length [e]
      have hnone : dijkstra g s e = none := by
        rw [hdij, hrec]
      constructor
      · rw [hnone]
        constructor
        · intro h
          exact absurd h (by simp)
        · intro hex
          exfalso
          obtain ⟨p, hp⟩ := hex
          have hsσ : s ∈ σ' := by
            rcases (hmemiff s).mp hs with h | h
            · exact h
            · exfalso
              have h0 := inv'.s0
              rw [hinf s h] at h0
              exact Option.noConfusion h0
          exact no_crossing g s σ' u' d' π' hwf inv' hinf p s e hp hsσ he'
      · intro p c h
        rw [hnone] at h
        exact Option.noConfusion h
    · have hπe : lookupA π' e ≠ none := inv'.finπ e qe hes hqe
      cases hl : lookupA π' e with
      | none => exact absurd hl hπe
      | some v =>
        have hvσ : v ∈ σ' := (inv'.πdom e v hl).2
        rcases inv'.πd e v hl with ⟨qv, cst, hqv, hcst, hqe2⟩
        have hqeq : qe = qv + cst := by
          rw [hqe] at hqe2
          injection hqe2
        have hvk : v ∈ g.map Prod.fst := by
          rw [← inv'.perm.mem_iff, List.mem_append]
          exact Or.inl hvσ
        have hvne : v ≠ "" := fun hc => hne (hc ▸ hvk)
        have heπk : e ∈ π'.map Prod.fst :=
          List.mem_map.mpr ⟨(e, v), lookupA_mem π' e v hl, rfl⟩
        have hσπ : σ'.length ≤ π'.length :=
          sigma_length_le_pi g s σ' u' d' π' inv' hσnd e heσ heπk
        have hidx : σ'.indexOf v < π'.length :=
          lt_of_lt_of_le (List.indexOf_lt_length.mpr hvσ) hσπ
        rcases walkBack_inv_chain g s σ' u' d' π' hne inv' (σ'.indexOf v) v hvσ
          (le_refl _) π'.length hidx [e] with ⟨pv, qv', hwb, hpv, hqv', hcostv⟩
        have hqveq : qv' = qv := by
          rw [hqv] at hqv'
          injection hqv' with hx
          exact hx.symm
        have hprevE : prevStep π' e = some v := by
          unfold prevStep
          rw [hl]
          dsimp only
          rw [if_neg hvne]
        have hrec : reconstructPath s e π' = some (pv ++ [e]) := by
          unfold reconstructPath
          simp only [walkBack]
          rw [if_neg hene, if_neg hes, hprevE, hwb]
        have hsome : dijkstra g s e = some (pv ++ [e], qe) := by
          rw [hdij, hrec, hqe]
          rfl
        have hpath : IsPath g s e (pv ++ [e]) := by
          refine isPath_append g s v e pv hpv ?_
          rw [hcst]
          rfl
        have hcostfull : pathCost g (pv ++ [e]) = qe := by
          rw [pathCost_concat g pv v e hpv.2.1, hcst]
          simp only [Option.getD_some]
          rw [hcostv, hqveq]
          exact hqeq.symm
        constructor
        · rw [hsome]
          constructor
          · intro _
            exact ⟨pv ++ [e], hpath⟩
          · intro _
            rfl
        · intro p c h
          rw [hsome] at h
          injection h with h1
          rw [Prod.mk.injEq] at h1
          obtain ⟨hp1, hc1⟩ := h1
          subst hp1
          subst hc1
          exact ⟨hpath, hcostfull, hmin⟩

/-- C1 counterexample to the unamended claim: in the graph with keys `A` and
the empty string, joined by a cost-1 edge in both directions, all costs are
non-negative, both endpoints are keys, and `[A, ""]` is a path from `A` to
`""`, yet `dijkstra` returns no result: the falsy empty string aborts the
search. -/
theorem dijkstra_correct_counterexample :
    dijkstra ([("A", [("", 1)]), ("", [("A", 1)])] : Graph) "A" "" = none ∧
    NonnegCosts ([("A", [("", 1)]), ("", [("A", 1)])] : Graph) ∧
    "A" ∈ ([("A", [("", 1)]), ("", [("A", 1)])] : Graph).map Prod.fst ∧
    "" ∈ ([("A", [("", 1)]), ("", [("A", 1)])] : Graph).map Prod.fst ∧
    IsPath ([("A", [("", 1)]), ("", [("A", 1)])] : Graph) "A" "" ["A", ""] := by
  refine ⟨by decide, by unfold NonnegCosts; decide, by decide, by decide, ?_⟩
  exact ⟨rfl, rfl, List.chain'_cons.mpr ⟨by decide, List.chain'_singleton _⟩⟩

theorem dijkstra_correct_witness :
    ((dijkstra ([("A", [("B", 1)]), ("B", [("A", 1)])] : Graph) "A" "B").isSome = true ↔
      ∃ p, IsPath ([("A", [("B", 1)]), ("B", [("A", 1)])] : Graph) "A" "B" p) ∧
    (∀ p c, dijkstra ([("A", [("B", 1)]), ("B", [("A", 1)])] : Graph) "A" "B" =
        some (p, c) →
      IsPath ([("A", [("B", 1)]), ("B", [("A", 1)])] : Graph) "A" "B" p ∧
      pathCost ([("A", [("B", 1)]), ("B", [("A", 1)])] : Graph) p = c ∧
      ∀ q, IsPath ([("A", [("B", 1)]), ("B", [("A", 1)])] : Graph) "A" "B" q →
        c ≤ pathCost ([("A", [("B", 1)]), ("B", [("A", 1)])] : Graph) q) :=
  dijkstra_correct ([("A", [("B", 1)]), ("B", [("A", 1)])] : Graph) "A" "B"
    (by constructor <;> decide) (by unfold NonnegCosts; decide)
    (by decide) (by decide) (by decide)

end RouteFinder
